import Mathlib

set_option linter.unusedVariables false

/-!
Verification of the Status-Transition and SLE Analytics Engine.

This file gives a shallow embedding, in Lean 4, of the analytics engine of
the aging-WIP board generator (the JavaScript functions `calculateAge`,
`formatDate`, `buildStatusCategoryMap`, `findFirstStableExitFromTodo`,
`findMostRecentTransitionToStatus`, `calculateAgeMetrics`, `parseWindow`,
`filterTransitionsByWindow`, `calculatePercentile`,
`calculateSLEsForStatuses`, `createColumns`, `groupByStatus` and
`buildOutput`), and proves or refutes the specification claims about them.

Modelling conventions:
* JavaScript strings are modelled as `List Char` (`Str`); JavaScript string
  comparison (`>=`, `localeCompare` on ASCII data) is the lexicographic
  order on `List Char` by code point, which is Mathlib's linear order on
  `List Char`.
* JavaScript `Date` values are modelled as `Timestamp`: a civil day number
  (days since 1970-01-01) plus milliseconds past midnight.  The process is
  assumed to run in the UTC timezone, so `toDateString` equality is day
  equality and `getDate`/`setDate`/`toISOString` all act on the civil day.
  `Date` subtraction is exact millisecond subtraction; the engine's
  `Math.floor(diffMs / 86400000)` is `Int.fdiv` (floats are modelled as
  exact arithmetic, which agrees with IEEE doubles on the date ranges the
  program handles).
* JavaScript numbers inside the percentile computation are modelled as `ℚ`.
* `Map` objects keyed by strings are modelled either as `Str → Option Str`
  (the shared status-category map, where only lookup is observed) or as
  association lists in insertion order (where iteration order is observed).
* Fallible code (`parseWindow` throwing) is modelled with `Except`.
* Issue fields that are pure presentation payload (summary, assignee,
  avatar, urls, labels, priority, type, nickname) are outside the engine
  per the specification and are not carried in the model.
-/

/-- JavaScript strings, as lists of characters. -/
abbrev Str := List Char

/-- Milliseconds per day (the JS constant `1000 * 60 * 60 * 24`). -/
def msPerDay : Int := 86400000

/-- Decimal rendering of an integer, as JS `String(n)` / template interpolation. -/
def intToStr (n : Int) : Str := (toString n).data

/-- JS `String(n).padStart(2, '0')`. -/
def pad2 (n : Int) : Str :=
  let s := intToStr n
  if s.length < 2 then '0' :: s else s

/-- Pad a year to four digits, as in the date part of JS `toISOString()`
(years outside 0..9999 use an expanded form in JS; the engine only meets
four-digit years). -/
def pad4 (n : Int) : Str :=
  let s := intToStr n
  List.replicate (4 - s.length) '0' ++ s

/-- Civil (proleptic Gregorian) date from a day number (days since
1970-01-01), the standard days-to-civil algorithm; this is what JS `Date`
getters compute from a UTC timestamp. -/
def civilFromDays (z0 : Int) : Int × Int × Int :=
  let z := z0 + 719468
  let era := z.fdiv 146097
  let doe := z - era * 146097
  let yoe := (doe - doe.fdiv 1460 + doe.fdiv 36524 - doe.fdiv 146096).fdiv 365
  let y := yoe + era * 400
  let doy := doe - (365 * yoe + yoe.fdiv 4 - yoe.fdiv 100)
  let mp := (5 * doy + 2).fdiv 153
  let d := doy - (153 * mp + 2).fdiv 5 + 1
  let m := mp + (if mp < 10 then 3 else -9)
  (y + (if m ≤ 2 then 1 else 0), m, d)

/-- Day number (days since 1970-01-01) of a civil date, the standard
civil-to-days algorithm; this is what JS `Date.UTC(y, m, d)` computes. -/
def daysFromCivil (y m d : Int) : Int :=
  let y' := y - (if m ≤ 2 then 1 else 0)
  let era := y'.fdiv 400
  let yoe := y' - era * 400
  let doy := (153 * (m + (if m > 2 then -3 else 9)) + 2).fdiv 5 + d - 1
  let doe := yoe * 365 + yoe.fdiv 4 - yoe.fdiv 100 + doy
  era * 146097 + doe - 719468

/-- A JS `Date` value (UTC): civil day number plus milliseconds past
midnight. -/
structure Timestamp where
  day : Int
  ms : Int
deriving DecidableEq, Repr

/-- The epoch-milliseconds value of a timestamp (what JS `Date` subtraction
operates on). -/
def epochMs (t : Timestamp) : Int := t.day * msPerDay + t.ms

/-- Source `calculateAge(createdDate, referenceDate)` (part_002 lines
1287-1295): `Math.max(1, Math.floor((reference - created) / 86400000) + 1)`. -/
def calculateAge (createdDate referenceDate : Timestamp) : Int :=
  let diffMs := epochMs referenceDate - epochMs createdDate
  let diffDays := diffMs.fdiv msPerDay
  max 1 (diffDays + 1)

/-- Source `formatDate(isoDateString)` (part_002 lines 1297-1303):
`year-month-day` with month and day zero-padded to two digits and the year
rendered by `getFullYear()` (unpadded). -/
def formatDate (t : Timestamp) : Str :=
  let c := civilFromDays t.day
  intToStr c.1 ++ ('-' :: pad2 c.2.1) ++ ('-' :: pad2 c.2.2)

/-- Render a day number as the date part of JS `toISOString()`. -/
def isoDateFromDay (day : Int) : Str :=
  let c := civilFromDays day
  pad4 c.1 ++ ('-' :: pad2 c.2.1) ++ ('-' :: pad2 c.2.2)

-- ============================================================================
-- StatusCategoryResolver
-- ============================================================================

/-- The two API shapes a status category arrives in: a bare string
(`/rest/api/3/statuses`) or an object with an optional `key` field
(`/rest/api/3/status/id`).  An absent `key` property is `Option.none`. -/
inductive CategoryValue where
  | str (s : Str)
  | obj (key : Option Str)
deriving DecidableEq

/-- One status definition from the source API.  `statusCategory = none`
models an absent/undefined property. -/
structure StatusDef where
  id : Str
  name : Str
  statusCategory : Option CategoryValue
deriving DecidableEq

def strTODO : Str := ("TODO").data
def strINPROGRESS : Str := ("IN_PROGRESS").data
def strDONE : Str := ("DONE").data
def catNew : Str := ("new").data
def catIndeterminate : Str := ("indeterminate").data
def catDone : Str := ("done").data

/-- The literal `categoryStringToKey` table of `buildStatusCategoryMap`. -/
def categoryStringToKey (s : Str) : Option Str :=
  if s = strTODO then some catNew
  else if s = strINPROGRESS then some catIndeterminate
  else if s = strDONE then some catDone
  else none

/-- ASCII lowering of one character (the fragment of JS `toLowerCase()` the
engine's inputs exercise). -/
def asciiLowerChar (c : Char) : Char :=
  if 65 ≤ c.toNat ∧ c.toNat ≤ 90 then Char.ofNat (c.toNat + 32) else c

/-- JS `toLowerCase()` on ASCII data. -/
def asciiLower (s : Str) : Str := s.map asciiLowerChar

/-- JS truthiness of a string value: defined and non-empty. -/
def truthyStr : Option Str → Bool
  | none => false
  | some s => decide (s ≠ [])

/-- JS truthiness of the `statusCategory` field (`undefined`, `null` and the
empty string are falsy; any object is truthy). -/
def truthyCategory : Option CategoryValue → Bool
  | none => false
  | some (CategoryValue.str s) => decide (s ≠ [])
  | some (CategoryValue.obj _) => true

/-- The `categoryKey` computed for one status inside
`buildStatusCategoryMap` (part_002 lines 1316-1333), `none` when the status
contributes no map entries: the status must pass the outer truthiness check,
a string category maps through `categoryStringToKey` with a `toLowerCase()`
fallback, an object category contributes its `key` if truthy, and the
resulting key must itself be truthy. -/
def statusCategoryKeyOf (st : StatusDef) : Option Str :=
  if truthyCategory st.statusCategory then
    match st.statusCategory with
    | some (CategoryValue.str s) =>
      let key := match categoryStringToKey s with
        | some k => k
        | none => asciiLower s
      if truthyStr (some key) then some key else none
    | some (CategoryValue.obj k) =>
      if truthyStr k then k else none
    | none => none
  else none

/-- The shared status-category map: lookup by status id or status name. -/
abbrev StatusCategoryMap := Str → Option Str

/-- One `map.set(status.id, key); map.set(status.name, key)` step of
`buildStatusCategoryMap`; a status whose `categoryKey` is falsy leaves the
map untouched. -/
def buildStatusCategoryStep (m : StatusCategoryMap) (st : StatusDef) : StatusCategoryMap :=
  match statusCategoryKeyOf st with
  | none => m
  | some key => fun x =>
      if x = st.name then some key
      else if x = st.id then some key
      else m x

/-- Source `buildStatusCategoryMap(statuses)` (part_002 lines 1305-1338). -/
def buildStatusCategoryMap (statuses : List StatusDef) : StatusCategoryMap :=
  statuses.foldl buildStatusCategoryStep (fun _ => none)

-- ============================================================================
-- ChangelogTransitionExtractor
-- ============================================================================

def strStatus : Str := ("status").data

/-- One changelog item (`history.items[]`); `fromId`/`toId` model the
nullable `from`/`to` status ids. -/
structure ChangeItem where
  field : Str
  fromId : Option Str
  toId : Option Str
deriving DecidableEq

/-- One changelog history entry with its `created` timestamp. -/
structure History where
  created : Timestamp
  items : List ChangeItem
deriving DecidableEq

/-- An issue changelog; an absent changelog (or absent `histories`) is
modelled as `Option.none` at use sites. -/
structure Changelog where
  histories : List History
deriving DecidableEq

/-- `history.items.find(item => item.field === 'status')`. -/
def findStatusItem (h : History) : Option ChangeItem :=
  h.items.find? (fun it => decide (it.field = strStatus))

/-- `statusCategoryMap.get(x)` where `x` is a nullable status id. -/
def getCategory (m : StatusCategoryMap) (x : Option Str) : Option Str :=
  x.bind m

/-- The inner same-day lookahead of `findFirstStableExitFromTodo` (part_002
lines 1399-1422): walk the remaining chronological histories; entries
without a status change are skipped; the first status change on a different
calendar day stops the scan; a same-day status change back into the TODO
category reports a bounce. -/
def sameDayReturnToTodo (m : StatusCategoryMap) (day : Int) : List History → Bool
  | [] => false
  | h :: rest =>
    match findStatusItem h with
    | none => sameDayReturnToTodo m day rest
    | some sc =>
      if h.created.day = day then
        if getCategory m sc.toId = some catNew then true
        else sameDayReturnToTodo m day rest
      else false

/-- The outer candidate scan of `findFirstStableExitFromTodo` over the
chronological (oldest-first) history list. -/
def findStableExitGo (m : StatusCategoryMap) : List History → Option Timestamp
  | [] => none
  | h :: rest =>
    match findStatusItem h with
    | none => findStableExitGo m rest
    | some sc =>
      if getCategory m sc.fromId = some catNew ∧ getCategory m sc.toId ≠ some catNew then
        if sameDayReturnToTodo m h.created.day rest then findStableExitGo m rest
        else some h.created
      else findStableExitGo m rest

/-- Source `findFirstStableExitFromTodo(changelog, statusCategoryMap)`
(part_002 lines 1375-1435): reverse the delivered histories to chronological
order and scan for the first exit from the TODO category with no same-day
return to TODO. -/
def findFirstStableExitFromTodo (changelog : Option Changelog) (m : StatusCategoryMap) :
    Option Timestamp :=
  match changelog with
  | none => none
  | some cl => findStableExitGo m cl.histories.reverse

/-- Source `findMostRecentTransitionToStatus(changelog, currentStatusId)`
(part_002 lines 1437-1452): scan the histories in delivered order and return
the `created` timestamp of the first entry whose status change lands on the
current status id. -/
def findMostRecentTransitionToStatus (changelog : Option Changelog) (currentStatusId : Str) :
    Option Timestamp :=
  match changelog with
  | none => none
  | some cl =>
    cl.histories.findSome? (fun h =>
      match findStatusItem h with
      | some sc => if sc.toId = some currentStatusId then some h.created else none
      | none => none)

-- ============================================================================
-- AgingCalculator
-- ============================================================================

/-- The engine-relevant fields of one issue: `key`, `fields.status.id`,
`fields.status.name`, `fields.created` and the changelog. -/
structure Issue where
  key : Str
  statusId : Str
  statusName : Str
  created : Timestamp
  changelog : Option Changelog
deriving DecidableEq

/-- The result record of `calculateAgeMetrics`. -/
structure AgeMetrics where
  age : Int
  age_in_current_state : Int
  start_date : Str
  current_state_start_date : Str
deriving DecidableEq

/-- Source `calculateAgeMetrics(issue, referenceDate, statusCategoryMap)`
(part_002 lines 1454-1484): anchor the total age at the first stable exit
from TODO (falling back to the creation date) and the current-state age at
the most recent transition into the current status (same fallback). -/
def calculateAgeMetrics (issue : Issue) (referenceDate : Timestamp)
    (m : StatusCategoryMap) : AgeMetrics :=
  let firstStableExit := findFirstStableExitFromTodo issue.changelog m
  let mostRecentTransition := findMostRecentTransitionToStatus issue.changelog issue.statusId
  let ageStartDate := firstStableExit.getD issue.created
  let currentStateStartDate := mostRecentTransition.getD issue.created
  { age := calculateAge ageStartDate referenceDate
    age_in_current_state := calculateAge currentStateStartDate referenceDate
    start_date := formatDate ageStartDate
    current_state_start_date := formatDate currentStateStartDate }

-- ============================================================================
-- Sanity checks of the calendar model
-- ============================================================================

example : daysFromCivil 1970 1 1 = 0 := by decide

example : civilFromDays 0 = (1970, 1, 1) := by decide

example : daysFromCivil 2024 1 15 - daysFromCivil 2024 1 10 = 5 := by decide

example : formatDate { day := daysFromCivil 2024 3 5, ms := 0 } = ("2024-03-05").data := by
  decide

-- ============================================================================
-- C1: concrete scenario data
-- ============================================================================

/-- Status definitions for the C1 scenario: a Backlog status (category
TODO) and an Active status (category IN_PROGRESS). -/
def statusesC1 : List StatusDef :=
  [ { id := ("1").data, name := ("Backlog").data, statusCategory := some (CategoryValue.str strTODO) }
  , { id := ("2").data, name := ("Active").data, statusCategory := some (CategoryValue.str strINPROGRESS) } ]

def mapC1 : StatusCategoryMap := buildStatusCategoryMap statusesC1

/-- An issue created 2024-01-01 whose only transition leaves Backlog for
Active on 2024-01-10 (midnight, as a bare date) and sticks. -/
def issueC1 : Issue :=
  { key := ("PROJ-1").data
    statusId := ("2").data
    statusName := ("Active").data
    created := { day := daysFromCivil 2024 1 1, ms := 0 }
    changelog := some { histories :=
      [ { created := { day := daysFromCivil 2024 1 10, ms := 0 }
          items := [ { field := strStatus, fromId := some (("1").data), toId := some (("2").data) } ] } ] } }

def referenceC1 : Timestamp := { day := daysFromCivil 2024 1 15, ms := 0 }

/-- C1: the day count of `calculateAge` is `floor((reference - anchor) in
days) + 1`, clamped below at 1; hence every reported `age` and
`age_in_current_state` is at least 1, for any reference date, even one equal
to or before the anchor; and the issue created 2024-01-01 that stably exits
Backlog on 2024-01-10, read against reference date 2024-01-15, reports total
age 6 (15 - 10 + 1), not 5. -/
theorem calculateAge_day1_rule :
    (∀ created reference : Timestamp,
      calculateAge created reference =
        max 1 ((epochMs reference - epochMs created).fdiv msPerDay + 1)) ∧
    (∀ created reference : Timestamp, 1 ≤ calculateAge created reference) ∧
    (∀ (issue : Issue) (reference : Timestamp) (m : StatusCategoryMap),
      1 ≤ (calculateAgeMetrics issue reference m).age ∧
      1 ≤ (calculateAgeMetrics issue reference m).age_in_current_state) ∧
    (calculateAgeMetrics issueC1 referenceC1 mapC1).age = 6 := by
  refine ⟨fun c r => rfl, fun c r => le_max_left 1 _, fun i r m => ⟨le_max_left 1 _, le_max_left 1 _⟩, ?_⟩
  decide

-- ============================================================================
-- PercentileCalculator
-- ============================================================================

/-- Source `calculatePercentile(sortedValues, percentile)` (part_002 lines
1651-1661): 0 on an empty sample, the sole element on a singleton, otherwise
linear interpolation between the order statistics at
`floor((p/100)*(n-1))` and `ceil((p/100)*(n-1))` weighted by the fractional
part.  Out-of-range indices read as 0 here where JS would produce NaN; every
use below keeps `p` in `[0,100]`, where the indices are in range. -/
def calculatePercentile (sortedValues : List ℚ) (percentile : ℚ) : ℚ :=
  if sortedValues.length = 0 then 0
  else if sortedValues.length = 1 then sortedValues.getD 0 0
  else
    let index := (percentile / 100) * ((sortedValues.length : ℚ) - 1)
    let lower := ⌊index⌋
    let upper := ⌈index⌉
    let weight := index - (lower : ℚ)
    sortedValues.getD lower.toNat 0 * (1 - weight) + sortedValues.getD upper.toNat 0 * weight

/-- C2: the percentile computation interpolates linearly at index
`(p/100)*(n-1)`: on `[1,2,3,4]` the 50th percentile is 2.5; a singleton
sample yields its element for every percentile; and on any non-empty
ascending-sorted sample the 0th percentile is the first element and the
100th percentile the last. -/
theorem calculatePercentile_interpolation :
    calculatePercentile [1, 2, 3, 4] 50 = 5/2 ∧
    (∀ p : ℚ, calculatePercentile [5] p = 5) ∧
    (∀ S : List ℚ, S ≠ [] → List.Sorted (· ≤ ·) S →
      calculatePercentile S 0 = S.getD 0 0 ∧
      calculatePercentile S 100 = S.getD (S.length - 1) 0) := by
  refine ⟨?_, fun p => rfl, ?_⟩
  · have hidx : ((50 : ℚ) / 100) * ((([1, 2, 3, 4] : List ℚ).length : ℚ) - 1) = 3/2 := by
      norm_num
    have hfl : (⌊(3/2 : ℚ)⌋ : ℤ) = 1 := by
      rw [Int.floor_eq_iff]
      norm_num
    have hcl : (⌈(3/2 : ℚ)⌉ : ℤ) = 2 := by
      rw [Int.ceil_eq_iff]
      norm_num
    simp only [calculatePercentile, hidx, hfl, hcl,
      show (1 : ℤ).toNat = 1 from rfl, show (2 : ℤ).toNat = 2 from rfl,
      List.getD_cons_succ, List.getD_cons_zero]
    norm_num
  · intro S hne hsorted
    match S, hne with
    | [x], _ =>
      constructor <;> rfl
    | x :: y :: rest, _ =>
      have hlen2 : 2 ≤ (x :: y :: rest).length := by simp [Nat.succ_le_succ, Nat.le_add_left]
      have hlen0 : ¬ (x :: y :: rest).length = 0 := by simp
      have hlen1 : ¬ (x :: y :: rest).length = 1 := by omega
      constructor
      · have hidx : ((0 : ℚ) / 100) * (((x :: y :: rest).length : ℚ) - 1) = 0 := by
          norm_num
        simp only [calculatePercentile, if_neg hlen0, if_neg hlen1, hidx]
        norm_num
      · have hup : ((x :: y :: rest).length : ℚ) - 1 = (((x :: y :: rest).length - 1 : ℕ) : ℚ) := by
          have : 1 ≤ (x :: y :: rest).length := by omega
          push_cast [this]
          ring
        have hidx : ((100 : ℚ) / 100) * (((x :: y :: rest).length : ℚ) - 1) =
            (((x :: y :: rest).length - 1 : ℕ) : ℚ) := by
          rw [hup]; norm_num
        have hfl : ⌊(((x :: y :: rest).length - 1 : ℕ) : ℚ)⌋ = ((x :: y :: rest).length - 1 : ℕ) :=
          Int.floor_natCast _
        have hcl : ⌈(((x :: y :: rest).length - 1 : ℕ) : ℚ)⌉ = ((x :: y :: rest).length - 1 : ℕ) :=
          Int.ceil_natCast _
        simp only [calculatePercentile, if_neg hlen0, if_neg hlen1, hidx, hfl, hcl]
        simp [Int.toNat_natCast]

/-- Witness for C2: the sorted two-element sample `[1,2]` has 0th percentile
1 and 100th percentile 2. -/
theorem calculatePercentile_interpolation_witness :
    calculatePercentile [1, 2] 0 = 1 ∧ calculatePercentile [1, 2] 100 = 2 := by
  have h := calculatePercentile_interpolation.2.2 [1, 2] (by simp)
    (by simp [List.sorted_cons])
  exact ⟨h.1, h.2⟩

/-- C10: applied to an empty sample (outside the spec's non-empty
precondition) the percentile computation returns 0 for every percentile,
instead of failing; callers never observe an error from it. -/
theorem calculatePercentile_empty_total :
    ∀ p : ℚ, calculatePercentile [] p = 0 :=
  fun _ => rfl

-- ============================================================================
-- C3: stable-exit scan scenarios
-- ============================================================================

/-- The calendar day shared by the C3 events. -/
def dayC3 : Int := daysFromCivil 2024 3 1

/-- A timestamp on the C3 day at a given hour. -/
def tsC3at (h : Int) : Timestamp := { day := dayC3, ms := h * 3600000 }

/-- A single-status-change history entry at a given hour of the C3 day. -/
def histC3 (h : Int) (fr tid : Str) : History :=
  { created := tsC3at h
    items := [ { field := strStatus, fromId := some fr, toId := some tid } ] }

/-- The spec example, delivered newest-first: Active→Backlog at 15:00 above
Backlog→Active at 09:00 of the same day (status ids: 1 = Backlog, 2 = Active
per statusesC1). -/
def clC3spec : Changelog :=
  { histories := [ histC3 15 ("2").data ("1").data, histC3 9 ("1").data ("2").data ] }

/-- Same-day triple, delivered newest-first: Backlog→Active 09:00,
Active→Backlog 10:00, Backlog→Active 11:00, nothing afterwards. -/
def clC3bounce : Changelog :=
  { histories :=
    [ histC3 11 ("1").data ("2").data
    , histC3 10 ("2").data ("1").data
    , histC3 9 ("1").data ("2").data ] }

/-- An issue sitting back in Backlog after the same-day bounce of the spec
example. -/
def issueC3 : Issue :=
  { key := ("PROJ-3").data
    statusId := ("1").data
    statusName := ("Backlog").data
    created := { day := daysFromCivil 2024 2 20, ms := 0 }
    changelog := some clC3spec }

def referenceC3 : Timestamp := { day := daysFromCivil 2024 3 5, ms := 0 }

/-- Counterexample to C3 as stated.  On the same-day event triple
[Backlog→Active 09:00, Active→Backlog 10:00, Backlog→Active 11:00] the 09:00
candidate is discarded for its same-day bounce; the claim then has the scan
continue "from the next candidate after that day", and no candidate exists
after that day, so the claim forces an empty result.  The code instead
resumes at the very next event and returns the 11:00 exit, a candidate on
the same calendar day as the discarded one. -/
theorem findFirstStableExitFromTodo_same_day_candidate_counterexample :
    findFirstStableExitFromTodo (some clC3bounce) mapC1 = some (tsC3at 11) ∧
    (tsC3at 11).day = (tsC3at 9).day := by
  constructor
  · decide
  · rfl

/-- C3 (amended): the stable-exit scan processes events oldest-first and
returns the first transition from the Backlog category to a different
category that is not followed, on the same calendar day, by a transition
back into Backlog; when such a same-day bounce exists the candidate is
discarded and the scan continues from the next candidate, which may itself
lie on the same calendar day.  For the spec example
[Backlog→Active 09:00, Active→Backlog 15:00 same day] with no later exits
the result is empty and the age anchor falls back to the creation date; on
the same-day triple ending in an unreversed 11:00 exit the scan returns
that same-day exit. -/
theorem findFirstStableExitFromTodo_bounce_rule :
    findFirstStableExitFromTodo (some clC3spec) mapC1 = none ∧
    (calculateAgeMetrics issueC3 referenceC3 mapC1).start_date = formatDate issueC3.created ∧
    (calculateAgeMetrics issueC3 referenceC3 mapC1).age = calculateAge issueC3.created referenceC3 ∧
    findFirstStableExitFromTodo (some clC3bounce) mapC1 = some (tsC3at 11) := by
  refine ⟨by decide, by decide, by decide, by decide⟩

-- ============================================================================
-- TransitionWindowFilter: parsing
-- ============================================================================

/-- Decimal-digit test (the regex class `\d`). -/
def isDigitCh (c : Char) : Bool := decide (48 ≤ c.toNat ∧ c.toNat ≤ 57)

/-- Numeric value of a digit string (JS `parseInt` on a `\d+` match,
modelled exactly; the engine's windows stay far below the 2^53 float
threshold). -/
def digitsToNat (s : Str) : Nat :=
  s.foldl (fun acc c => acc * 10 + (c.toNat - 48)) 0

/-- Match of the regex `^(\d+)d$` with the `i` flag: at least one digit
followed by a final `d` or `D`. -/
def matchDays (s : Str) : Option Nat :=
  match s.reverse with
  | [] => none
  | c :: rest =>
    if (c = 'd' ∨ c = 'D') ∧ rest ≠ [] ∧ rest.all isDigitCh then
      some (digitsToNat rest.reverse)
    else none

/-- Consume one leading dash if present (the regex piece `-?`, whose match
is forced: a dash must be consumed exactly when it is next, since `\d`
cannot match it). -/
def dropDash : Str → Str
  | '-' :: r => r
  | r => r

/-- Take two leading digits. -/
def takeDigits2 : Str → Option (Str × Str)
  | a :: b :: r => if isDigitCh a ∧ isDigitCh b then some ([a, b], r) else none
  | _ => none

/-- Take four leading digits. -/
def takeDigits4 : Str → Option (Str × Str)
  | a :: b :: c :: d :: r =>
    if isDigitCh a ∧ isDigitCh b ∧ isDigitCh c ∧ isDigitCh d then some ([a, b, c, d], r) else none
  | _ => none

/-- Match of the regex `^(\d{4})-?(\d{2})-?(\d{2})$`: note each `-?` is
independently optional, so `2024-0112` and `202401-12` match as well as
`2024-01-12` and `20240112`. -/
def matchDate (s : Str) : Option (Str × Str × Str) :=
  (takeDigits4 s).bind (fun p =>
    (takeDigits2 (dropDash p.2)).bind (fun q =>
      (takeDigits2 (dropDash q.2)).bind (fun w =>
        if w.2 = [] then some (p.1, q.1, w.1) else none)))

/-- Match of the regex `^(\d+)$`. -/
def matchCount (s : Str) : Option Nat :=
  if s ≠ [] ∧ s.all isDigitCh then some (digitsToNat s) else none

/-- The tagged window union produced by `parseWindow`: a date cutoff string
or a most-recent-transitions count. -/
inductive Window where
  | date (value : Str)
  | count (value : Nat)
deriving DecidableEq

def strInvalidWindow : Str := ("Invalid window format").data

/-- Source `parseWindow(windowStr, referenceDate)` (part_002 lines
1549-1579): `Nd` subtracts N days from the reference date and yields the
ISO date of the cutoff; a date-regex match yields the normalized
`Y-M-D` string; a bare digit string yields a count; anything else throws.
The reference date is passed as its civil day number. -/
def parseWindow (windowStr : Str) (referenceDay : Int) : Except Str Window :=
  match matchDays windowStr with
  | some days => Except.ok (Window.date (isoDateFromDay (referenceDay - days)))
  | none =>
    match matchDate windowStr with
    | some (y, mo, d) => Except.ok (Window.date (y ++ ('-' :: mo) ++ ('-' :: d)))
    | none =>
      match matchCount windowStr with
      | some n => Except.ok (Window.count n)
      | none => Except.error strInvalidWindow

-- ============================================================================
-- C4: shapes of accepted window strings
-- ============================================================================

/-- The `"<N>d"` shape of the claim: digits followed by `d` (or `D`, per the
case-insensitive regex flag). -/
def daysShape (s : Str) : Prop :=
  ∃ ds, ds ≠ [] ∧ ds.all isDigitCh = true ∧ (s = ds ++ ['d'] ∨ s = ds ++ ['D'])

/-- The claim's ISO-date shape, read strictly: `YYYY-MM-DD` or `YYYYMMDD`
only. -/
def strictDateShape (s : Str) : Prop :=
  (∃ y mo d, y.length = 4 ∧ mo.length = 2 ∧ d.length = 2 ∧
    y.all isDigitCh = true ∧ mo.all isDigitCh = true ∧ d.all isDigitCh = true ∧
    s = y ++ ('-' :: mo) ++ ('-' :: d)) ∨
  (s.length = 8 ∧ s.all isDigitCh = true)

/-- The date shape the code actually accepts: four digits, an optional
dash, two digits, an optional dash, two digits. -/
def looseDateShape (s : Str) : Prop :=
  ∃ y h1 mo h2 d, y.length = 4 ∧ mo.length = 2 ∧ d.length = 2 ∧
    y.all isDigitCh = true ∧ mo.all isDigitCh = true ∧ d.all isDigitCh = true ∧
    (h1 = [] ∨ h1 = ['-']) ∧ (h2 = [] ∨ h2 = ['-']) ∧
    s = y ++ h1 ++ mo ++ h2 ++ d

/-- The bare-integer shape: a non-empty digit string. -/
def countShape (s : Str) : Prop := s ≠ [] ∧ s.all isDigitCh = true

def cexC4 : Str := ("2024-0112").data

deriving instance DecidableEq for Except

/-- Counterexample to C4 as stated.  The input `2024-0112` matches none of
the claim's three shapes (`<N>d`, ISO `YYYY-MM-DD`/`YYYYMMDD`, bare
integer), so per the claim it must raise a format error; the code's date
regex has each hyphen independently optional, accepts it, and returns
`ByDate(2024-01-12)`. -/
theorem parseWindow_mixed_hyphen_counterexample :
    parseWindow cexC4 0 = Except.ok (Window.date (("2024-01-12").data)) ∧
    ¬ (daysShape cexC4 ∨ strictDateShape cexC4 ∨ countShape cexC4) := by
  constructor
  · decide
  · intro h
    rcases h with h | h | h
    · obtain ⟨ds, hne, hdig, hcase⟩ := h
      have hlast : cexC4.getLast? = some '2' := by decide
      rcases hcase with hc | hc <;>
      · rw [hc, ← List.concat_eq_append] at hlast
        simp [List.getLast?_concat] at hlast
    · rcases h with ⟨y, mo, d, hy, hmo, hd, _, _, _, hs⟩ | ⟨hlen, _⟩
      · have h9 : cexC4.length = 9 := by decide
        rw [hs] at h9
        simp [List.length_append, hy, hmo, hd] at h9
      · have h9 : cexC4.length = 9 := by decide
        omega
    · have : cexC4.all isDigitCh = false := by decide
      exact absurd h.2 (by simp [this])

-- ============================================================================
-- C4: matcher lemmas
-- ============================================================================

/-- `matchDays` accepts every `<N>d` / `<N>D` digit string. -/
theorem matchDays_append (ds : Str) (hne : ds ≠ []) (hdig : ds.all isDigitCh = true) :
    matchDays (ds ++ ['d']) = some (digitsToNat ds) ∧
    matchDays (ds ++ ['D']) = some (digitsToNat ds) := by
  constructor <;> simp [matchDays, List.reverse_append, List.all_reverse, hdig, hne]

/-- Whatever `matchDays` accepts has the `<N>d` shape. -/
theorem matchDays_shape (s : Str) (n : Nat) (h : matchDays s = some n) : daysShape s := by
  unfold matchDays at h
  split at h
  · cases h
  · next c rest heq =>
    split at h
    · next hcond =>
      have hs : s = rest.reverse ++ [c] := by
        have h2 := congrArg List.reverse heq
        simpa using h2
      refine ⟨rest.reverse, by simpa using hcond.2.1, by simpa [List.all_reverse] using hcond.2.2, ?_⟩
      rcases hcond.1 with hc | hc
      · exact Or.inl (by rw [hs, hc])
      · exact Or.inr (by rw [hs, hc])
    · cases h

/-- The last character of a `daysShape` string is `d` or `D`. -/
theorem daysShape_getLast (s : Str) (h : daysShape s) :
    s.getLast? = some 'd' ∨ s.getLast? = some 'D' := by
  obtain ⟨ds, _, _, hcase⟩ := h
  rcases hcase with hc | hc
  · exact Or.inl (by rw [hc, ← List.concat_eq_append]; simp [List.getLast?_concat])
  · exact Or.inr (by rw [hc, ← List.concat_eq_append]; simp [List.getLast?_concat])

/-- Whatever `matchCount` accepts is a non-empty digit string. -/
theorem matchCount_shape (s : Str) (n : Nat) (h : matchCount s = some n) : countShape s := by
  unfold matchCount at h
  split at h
  · next hcond => exact hcond
  · cases h

/-- `matchCount` accepts every non-empty digit string. -/
theorem matchCount_of_shape (s : Str) (h : countShape s) :
    matchCount s = some (digitsToNat s) := by
  unfold countShape at h
  unfold matchCount
  rw [if_pos h]

/-- `takeDigits4` consumes exactly a four-digit prefix. -/
theorem takeDigits4_append (y : Str) (hy : y.length = 4) (hdig : y.all isDigitCh = true)
    (r : Str) : takeDigits4 (y ++ r) = some (y, r) := by
  rcases y with _ | ⟨a, y2⟩
  · simp at hy
  rcases y2 with _ | ⟨b, y3⟩
  · simp at hy
  rcases y3 with _ | ⟨c, y4⟩
  · simp at hy
  rcases y4 with _ | ⟨d, tail⟩
  · simp at hy
  have hlen : tail.length = 0 := by
    simp only [List.length_cons] at hy
    omega
  have htail := List.length_eq_zero.mp hlen
  subst htail
  simp only [List.all_cons, Bool.and_eq_true, List.all_nil] at hdig
  simp [takeDigits4, hdig.1, hdig.2.1, hdig.2.2.1, hdig.2.2.2.1]

/-- Inversion for `takeDigits4`. -/
theorem takeDigits4_inv (s y r : Str) (h : takeDigits4 s = some (y, r)) :
    s = y ++ r ∧ y.length = 4 ∧ y.all isDigitCh = true := by
  unfold takeDigits4 at h
  split at h
  · next a b c d tl =>
    split at h
    · next hcond =>
      injection h with h'
      injection h' with h1 h2
      subst h1
      subst h2
      exact ⟨rfl, rfl, by simp [hcond.1, hcond.2.1, hcond.2.2.1, hcond.2.2.2]⟩
    · cases h
  · cases h

/-- `takeDigits2` consumes exactly a two-digit prefix. -/
theorem takeDigits2_append (y : Str) (hy : y.length = 2) (hdig : y.all isDigitCh = true)
    (r : Str) : takeDigits2 (y ++ r) = some (y, r) := by
  rcases y with _ | ⟨a, y2⟩
  · simp at hy
  rcases y2 with _ | ⟨b, tail⟩
  · simp at hy
  have hlen : tail.length = 0 := by
    simp only [List.length_cons] at hy
    omega
  have htail := List.length_eq_zero.mp hlen
  subst htail
  simp only [List.all_cons, Bool.and_eq_true, List.all_nil] at hdig
  simp [takeDigits2, hdig.1, hdig.2.1]

/-- Inversion for `takeDigits2`. -/
theorem takeDigits2_inv (s y r : Str) (h : takeDigits2 s = some (y, r)) :
    s = y ++ r ∧ y.length = 2 ∧ y.all isDigitCh = true := by
  unfold takeDigits2 at h
  split at h
  · next a b tl =>
    split at h
    · next hcond =>
      injection h with h'
      injection h' with h1 h2
      subst h1
      subst h2
      exact ⟨rfl, rfl, by simp [hcond.1, hcond.2]⟩
    · cases h
  · cases h

/-- `dropDash` leaves a string alone when its head is not a dash. -/
theorem dropDash_cons_ne (c : Char) (r : Str) (hc : c ≠ '-') : dropDash (c :: r) = c :: r := by
  unfold dropDash
  split
  · next heq =>
    injection heq with h1 _
    exact absurd h1 hc
  · rfl

/-- A digit character is not a dash. -/
theorem digit_ne_dash (c : Char) (h : isDigitCh c = true) : c ≠ '-' := by
  intro hc
  subst hc
  exact absurd h (by decide)

/-- A digit character is neither `d` nor `D`. -/
theorem digit_ne_dD (c : Char) (h : isDigitCh c = true) : c ≠ 'd' ∧ c ≠ 'D' := by
  constructor <;> intro hc <;> subst hc <;> exact absurd h (by decide)

theorem dropDash_dash (r : Str) : dropDash ('-' :: r) = r := rfl

/-- Every string splits as an optional leading dash plus its `dropDash`. -/
theorem dropDash_split (s : Str) : ∃ h1, (h1 = [] ∨ h1 = ['-']) ∧ s = h1 ++ dropDash s := by
  rcases s with _ | ⟨c, r⟩
  · exact ⟨[], Or.inl rfl, rfl⟩
  · by_cases hc : c = '-'
    · subst hc
      exact ⟨['-'], Or.inr rfl, by rw [dropDash_dash]; rfl⟩
    · exact ⟨[], Or.inl rfl, by rw [dropDash_cons_ne c r hc]; rfl⟩

/-- `matchDate` accepts every four-digit/optional-dash/two-digit/optional-
dash/two-digit string, yielding the three digit groups. -/
theorem matchDate_of_shape (y h1 mo h2 d : Str)
    (hy : y.length = 4) (hmo : mo.length = 2) (hd : d.length = 2)
    (hyd : y.all isDigitCh = true) (hmod : mo.all isDigitCh = true)
    (hdd : d.all isDigitCh = true)
    (hh1 : h1 = [] ∨ h1 = ['-']) (hh2 : h2 = [] ∨ h2 = ['-']) :
    matchDate (y ++ h1 ++ mo ++ h2 ++ d) = some (y, mo, d) := by
  obtain ⟨m1, mo2, hmoeq⟩ : ∃ m1 mo2, mo = m1 :: mo2 := by
    rcases mo with _ | ⟨m1, mo2⟩
    · simp at hmo
    · exact ⟨m1, mo2, rfl⟩
  obtain ⟨d1, d2tl, hdeq⟩ : ∃ d1 d2tl, d = d1 :: d2tl := by
    rcases d with _ | ⟨d1, d2tl⟩
    · simp at hd
    · exact ⟨d1, d2tl, rfl⟩
  have hm1 : isDigitCh m1 = true := by
    rw [hmoeq] at hmod
    simp only [List.all_cons, Bool.and_eq_true] at hmod
    exact hmod.1
  have hd1 : isDigitCh d1 = true := by
    rw [hdeq] at hdd
    simp only [List.all_cons, Bool.and_eq_true] at hdd
    exact hdd.1
  have hassoc : y ++ h1 ++ mo ++ h2 ++ d = y ++ (h1 ++ (mo ++ (h2 ++ d))) := by
    simp [List.append_assoc]
  have hdrop1 : dropDash (h1 ++ (mo ++ (h2 ++ d))) = mo ++ (h2 ++ d) := by
    rcases hh1 with rfl | rfl
    · rw [List.nil_append, hmoeq, List.cons_append]
      exact dropDash_cons_ne m1 _ (digit_ne_dash m1 hm1)
    · rw [List.cons_append, List.nil_append]
      exact dropDash_dash _
  have hdrop2 : dropDash (h2 ++ d) = d := by
    rcases hh2 with rfl | rfl
    · rw [List.nil_append, hdeq]
      exact dropDash_cons_ne d1 _ (digit_ne_dash d1 hd1)
    · rw [List.cons_append, List.nil_append]
      exact dropDash_dash _
  have htd : takeDigits2 d = some (d, []) := by
    have h2d := takeDigits2_append d hd hdd []
    rwa [List.append_nil] at h2d
  rw [hassoc]
  unfold matchDate
  rw [takeDigits4_append y hy hyd, Option.some_bind]
  simp only [hdrop1, takeDigits2_append mo hmo hmod, Option.some_bind]
  simp only [hdrop2, htd, Option.some_bind]
  simp

/-- Whatever `matchDate` accepts has the loose date shape. -/
theorem matchDate_shape (s y mo d : Str) (h : matchDate s = some (y, mo, d)) :
    looseDateShape s := by
  unfold matchDate at h
  cases heq4 : takeDigits4 s with
  | none => rw [heq4] at h; cases h
  | some p =>
    obtain ⟨y', r1⟩ := p
    rw [heq4, Option.some_bind] at h
    cases heq2 : takeDigits2 (dropDash r1) with
    | none => rw [heq2] at h; cases h
    | some q =>
      obtain ⟨mo', r3⟩ := q
      rw [heq2, Option.some_bind] at h
      cases heq2' : takeDigits2 (dropDash r3) with
      | none => rw [heq2'] at h; cases h
      | some w =>
        obtain ⟨d', r5⟩ := w
        rw [heq2', Option.some_bind] at h
        by_cases hr5 : r5 = []
        · rw [if_pos hr5] at h
          subst hr5
          obtain ⟨hs4, hylen, hydig⟩ := takeDigits4_inv _ _ _ heq4
          obtain ⟨hs2, hmolen, hmodig⟩ := takeDigits2_inv _ _ _ heq2
          obtain ⟨hs2', hdlen, hddig⟩ := takeDigits2_inv _ _ _ heq2'
          obtain ⟨e1, he1, hr1⟩ := dropDash_split r1
          obtain ⟨e2, he2, hr3⟩ := dropDash_split r3
          refine ⟨y', e1, mo', e2, d', hylen, hmolen, hdlen, hydig, hmodig, hddig, he1, he2, ?_⟩
          rw [hs4, hr1, hs2, hr3, hs2']
          simp [List.append_assoc]
        · rw [if_neg hr5] at h
          cases h

/-- An all-digit string that matches the loose date shape has length 8. -/
theorem looseDateShape_all_digits_length (s : Str) (hshape : looseDateShape s)
    (hdig : s.all isDigitCh = true) : s.length = 8 := by
  obtain ⟨y, h1, mo, h2, d, hy, hmo, hd, _, _, _, hh1, hh2, hs⟩ := hshape
  have hdash : ∀ e : Str, e = [] ∨ e = ['-'] → e ≠ ['-'] → e = [] := by
    intro e he hne
    rcases he with he | he
    · exact he
    · exact absurd he hne
  have hnod : ('-' : Char) ∉ s := by
    intro hmem
    rw [List.all_eq_true] at hdig
    exact absurd (hdig '-' hmem) (by decide)
  have hh1' : h1 = [] := by
    apply hdash h1 hh1
    intro he
    apply hnod
    rw [hs, he]
    simp
  have hh2' : h2 = [] := by
    apply hdash h2 hh2
    intro he
    apply hnod
    rw [hs, he]
    simp
  rw [hs, hh1', hh2']
  simp [List.length_append, hy, hmo, hd]

/-- On a non-empty all-digit string neither the days regex nor (unless its
length is 8) the date regex fires. -/
theorem matchers_on_digit_string (s : Str) (hne : s ≠ []) (hdig : s.all isDigitCh = true) :
    matchDays s = none ∧ (s.length ≠ 8 → matchDate s = none) := by
  constructor
  · cases hmd : matchDays s with
    | none => rfl
    | some n =>
      exfalso
      have hshape := matchDays_shape s n hmd
      have hlast := daysShape_getLast s hshape
      have hmem : ∀ c, s.getLast? = some c → isDigitCh c = true := by
        intro c hc
        rw [List.all_eq_true] at hdig
        exact hdig c (List.mem_of_mem_getLast? hc)
      rcases hlast with hl | hl
      · exact absurd (hmem 'd' hl) (by decide)
      · exact absurd (hmem 'D' hl) (by decide)
  · intro hlen
    cases hmd : matchDate s with
    | none => rfl
    | some v =>
      exfalso
      obtain ⟨y, mo, d⟩ := v
      exact hlen (looseDateShape_all_digits_length s (matchDate_shape s y mo d hmd) hdig)

/-- C4 (amended): the parser maps every digit string followed by `d` (or
`D`) to `ByDate(reference − N days)`, every four-digit/optional-dash/
two-digit/optional-dash/two-digit string (so `YYYY-MM-DD`, `YYYYMMDD`, and
also the mixed forms `YYYY-MMDD` / `YYYYMM-DD`, each hyphen being
independently optional) to `ByDate` of the normalized `Y-M-D` string, and
every other non-empty bare digit string to `ByCount`; it raises a format
error exactly for the inputs matching none of these shapes. -/
theorem parseWindow_format_rules :
    (∀ (ds : Str) (ref : Int), ds ≠ [] → ds.all isDigitCh = true →
      parseWindow (ds ++ ['d']) ref =
        Except.ok (Window.date (isoDateFromDay (ref - digitsToNat ds))) ∧
      parseWindow (ds ++ ['D']) ref =
        Except.ok (Window.date (isoDateFromDay (ref - digitsToNat ds)))) ∧
    (∀ (y h1 mo h2 d : Str) (ref : Int), y.length = 4 → mo.length = 2 → d.length = 2 →
      y.all isDigitCh = true → mo.all isDigitCh = true → d.all isDigitCh = true →
      (h1 = [] ∨ h1 = ['-']) → (h2 = [] ∨ h2 = ['-']) →
      parseWindow (y ++ h1 ++ mo ++ h2 ++ d) ref =
        Except.ok (Window.date (y ++ ('-' :: mo) ++ ('-' :: d)))) ∧
    (∀ (s : Str) (ref : Int), s ≠ [] → s.all isDigitCh = true → s.length ≠ 8 →
      parseWindow s ref = Except.ok (Window.count (digitsToNat s))) ∧
    (∀ (s : Str) (ref : Int),
      (∃ e, parseWindow s ref = Except.error e) ↔
      ¬ (daysShape s ∨ looseDateShape s ∨ countShape s)) := by
  refine ⟨?_, ?_, ?_, ?_⟩
  · intro ds ref hne hdig
    have h := matchDays_append ds hne hdig
    exact ⟨by simp [parseWindow, h.1], by simp [parseWindow, h.2]⟩
  · intro y h1 mo h2 d ref hy hmo hd hyd hmod hdd hh1 hh2
    obtain ⟨d1, dtl, hdeq⟩ : ∃ d1 dtl, d = d1 :: dtl := by
      rcases d with _ | ⟨d1, dtl⟩
      · simp at hd
      · exact ⟨d1, dtl, rfl⟩
    obtain ⟨d2, htl, hdeq2⟩ : ∃ d2 htl, dtl = d2 :: htl := by
      rcases dtl with _ | ⟨d2, htl⟩
      · rw [hdeq] at hd; simp at hd
      · exact ⟨d2, htl, rfl⟩
    have htlnil : htl = [] := by
      rw [hdeq, hdeq2] at hd
      simp only [List.length_cons] at hd
      have : htl.length = 0 := by omega
      simpa using this
    have hd2 : isDigitCh d2 = true := by
      rw [hdeq, hdeq2, htlnil] at hdd
      simp only [List.all_cons, Bool.and_eq_true, List.all_nil] at hdd
      exact hdd.2.1
    have hlastd : (y ++ h1 ++ mo ++ h2 ++ d).getLast? = some d2 := by
      rw [List.getLast?_append, hdeq, hdeq2, htlnil]
      simp
    have hmdays : matchDays (y ++ h1 ++ mo ++ h2 ++ d) = none := by
      cases hmd : matchDays (y ++ h1 ++ mo ++ h2 ++ d) with
      | none => rfl
      | some n =>
        exfalso
        rcases daysShape_getLast _ (matchDays_shape _ n hmd) with hl | hl <;>
        · rw [hlastd] at hl
          injection hl with hl'
          subst hl'
          exact absurd hd2 (by decide)
    have hmdate := matchDate_of_shape y h1 mo h2 d hy hmo hd hyd hmod hdd hh1 hh2
    unfold parseWindow
    simp only [hmdays, hmdate]
  · intro s ref hne hdig hlen
    obtain ⟨hmdays, hmdate⟩ := matchers_on_digit_string s hne hdig
    simp [parseWindow, hmdays, hmdate hlen, matchCount_of_shape s ⟨hne, hdig⟩]
  · intro s ref
    constructor
    · rintro ⟨e, he⟩ hshape
      rcases hshape with hA | hB | hC
      · obtain ⟨ds, hne, hdig, hcase⟩ := hA
        have hsome : ∃ n, matchDays s = some n := by
          rcases hcase with rfl | rfl
          · exact ⟨_, (matchDays_append ds hne hdig).1⟩
          · exact ⟨_, (matchDays_append ds hne hdig).2⟩
        obtain ⟨n, hn⟩ := hsome
        simp [parseWindow, hn] at he
      · cases hmd : matchDays s with
        | some n => simp [parseWindow, hmd] at he
        | none =>
          obtain ⟨y, h1, mo, h2, d, hy, hmo, hd, hyd, hmod, hdd, hh1, hh2, hs⟩ := hB
          subst hs
          have hmdate := matchDate_of_shape y h1 mo h2 d hy hmo hd hyd hmod hdd hh1 hh2
          unfold parseWindow at he
          simp only [hmd, hmdate] at he
          exact Except.noConfusion he
      · cases hmd : matchDays s with
        | some n => simp [parseWindow, hmd] at he
        | none =>
          cases hmd2 : matchDate s with
          | some v => simp [parseWindow, hmd, hmd2] at he
          | none =>
            simp [parseWindow, hmd, hmd2, matchCount_of_shape s hC] at he
    · intro hn
      have h1 : matchDays s = none := by
        cases hmd : matchDays s with
        | none => rfl
        | some n => exact absurd (Or.inl (matchDays_shape s n hmd)) hn
      have h2 : matchDate s = none := by
        cases hmd : matchDate s with
        | none => rfl
        | some v =>
          obtain ⟨y, mo, d⟩ := v
          exact absurd (Or.inr (Or.inl (matchDate_shape s y mo d hmd))) hn
      have h3 : matchCount s = none := by
        cases hmc : matchCount s with
        | none => rfl
        | some n => exact absurd (Or.inr (Or.inr (matchCount_shape s n hmc))) hn
      exact ⟨strInvalidWindow, by simp [parseWindow, h1, h2, h3]⟩

/-- Witness for C4: a concrete instance of each accepted shape. -/
theorem parseWindow_format_rules_witness :
    parseWindow (("7").data ++ ['d']) 10 =
      Except.ok (Window.date (isoDateFromDay (10 - digitsToNat (("7").data)))) ∧
    parseWindow (("2024").data ++ [] ++ ("01").data ++ [] ++ ("12").data) 0 =
      Except.ok (Window.date (("2024").data ++ ('-' :: ("01").data) ++ ('-' :: ("12").data))) ∧
    parseWindow (("100").data) 0 = Except.ok (Window.count (digitsToNat (("100").data))) :=
  ⟨(parseWindow_format_rules.1 (("7").data) 10 (by decide) (by decide)).1,
   parseWindow_format_rules.2.1 (("2024").data) [] (("01").data) [] (("12").data) 0
     (by decide) (by decide) (by decide) (by decide) (by decide) (by decide)
     (Or.inl rfl) (Or.inl rfl),
   parseWindow_format_rules.2.2.1 (("100").data) 0 (by decide) (by decide) (by decide)⟩

-- ============================================================================
-- TransitionWindowFilter: application
-- ============================================================================

/-- One historical status-exit record: issue key, exit date (the `Y-M-D`
date part of the history timestamp) and the issue's overall age at exit. -/
structure TransitionRecord where
  issueKey : Str
  exitDate : Str
  overallAge : Int
deriving DecidableEq

/-- The descending-by-exit-date comparison used by the `ByCount` branch of
`filterTransitionsByWindow` (`(a, b) => b.exitDate.localeCompare(a.exitDate)`
on ASCII date strings). -/
def trDescLe (a b : TransitionRecord) : Prop := b.exitDate ≤ a.exitDate

instance : DecidableRel trDescLe := fun a b => by
  unfold trDescLe
  infer_instance

instance : IsTotal TransitionRecord trDescLe :=
  ⟨fun a b => le_total b.exitDate a.exitDate⟩

instance : IsTrans TransitionRecord trDescLe :=
  ⟨fun _ _ _ hab hbc => le_trans hbc hab⟩

/-- Source `filterTransitionsByWindow(transitions, window)` (part_002 lines
1639-1649): a date window keeps the records with `exitDate >= cutoff`
(lexicographic comparison of normalized date strings); a count window sorts
descending by exit date (a stable sort, as JS `Array.prototype.sort`) and
keeps the first `N`. -/
def filterTransitionsByWindow (transitions : List TransitionRecord) (window : Window) :
    List TransitionRecord :=
  match window with
  | Window.date cutoff => transitions.filter (fun t => decide (cutoff ≤ t.exitDate))
  | Window.count n => (List.insertionSort trDescLe transitions).take n

/-- C5: a date window retains exactly the records whose exit date is on or
after the cutoff (for a `"90d"` window the cutoff is reference − 90 days,
per `parseWindow`); a count window of `N` retains `min N total` records,
and they are the `N` most recent by exit date: every retained record's exit
date is at least every dropped record's. -/
theorem filterTransitionsByWindow_window_semantics :
    (∀ (ts : List TransitionRecord) (cutoff : Str) (r : TransitionRecord),
      r ∈ filterTransitionsByWindow ts (Window.date cutoff) ↔ r ∈ ts ∧ cutoff ≤ r.exitDate) ∧
    (∀ (ts : List TransitionRecord) (n : Nat),
      (filterTransitionsByWindow ts (Window.count n)).length = min n ts.length) ∧
    (∀ (ts : List TransitionRecord) (n : Nat), ∃ dropped,
      (filterTransitionsByWindow ts (Window.count n) ++ dropped).Perm ts ∧
      ∀ x ∈ filterTransitionsByWindow ts (Window.count n), ∀ y ∈ dropped,
        y.exitDate ≤ x.exitDate) := by
  refine ⟨?_, ?_, ?_⟩
  · intro ts cutoff r
    simp [filterTransitionsByWindow, List.mem_filter]
  · intro ts n
    have hperm := List.perm_insertionSort trDescLe ts
    simp [filterTransitionsByWindow, List.length_take, hperm.length_eq, Nat.min_comm]
  · intro ts n
    refine ⟨(List.insertionSort trDescLe ts).drop n, ?_, ?_⟩
    · have : (List.insertionSort trDescLe ts).take n ++ (List.insertionSort trDescLe ts).drop n
          = List.insertionSort trDescLe ts := List.take_append_drop n _
      rw [filterTransitionsByWindow, this]
      exact List.perm_insertionSort trDescLe ts
    · intro x hx y hy
      have hsorted : List.Pairwise trDescLe (List.insertionSort trDescLe ts) :=
        List.sorted_insertionSort trDescLe ts
      rw [← List.take_append_drop n (List.insertionSort trDescLe ts)] at hsorted
      rw [List.pairwise_append] at hsorted
      exact hsorted.2.2 x hx y hy

-- ============================================================================
-- SLEAssembler
-- ============================================================================

/-- Source `calculateSLEsForStatuses(transitionsByStatusId, window,
percentiles)` (part_002 lines 1663-1691): per status, filter the records by
the window; skip the status entirely when nothing survives; otherwise sort
the overall ages ascending and store the ceiling of each requested
percentile. -/
def calculateSLEsForStatuses (transitionsByStatusId : List (Str × List TransitionRecord))
    (window : Window) (percentiles : List ℚ) : List (Str × List Int) :=
  transitionsByStatusId.filterMap (fun p =>
    let filtered := filterTransitionsByWindow p.2 window
    if filtered = [] then none
    else
      let overallAges :=
        List.insertionSort (· ≤ ·) (filtered.map (fun t => (t.overallAge : ℚ)))
      some (p.1, percentiles.map (fun q => ⌈calculatePercentile overallAges q⌉)))

-- ============================================================================
-- C6: percentile monotonicity
-- ============================================================================

theorem getD_eq_get (v : List ℚ) (n : Nat) (h : n < v.length) : v.getD n 0 = v.get ⟨n, h⟩ := by
  simp [List.getD_eq_getElem?_getD, List.getElem?_eq_getElem h]

/-- In an ascending-sorted sample, positions read through `getD` are
monotone. -/
theorem sorted_getD_mono (v : List ℚ) (hs : List.Pairwise (· ≤ ·) v) (i j : Nat)
    (hij : i ≤ j) (hj : j < v.length) : v.getD i 0 ≤ v.getD j 0 := by
  have hi : i < v.length := Nat.lt_of_le_of_lt hij hj
  rcases Nat.eq_or_lt_of_le hij with rfl | hlt
  · exact le_refl _
  · rw [getD_eq_get v i hi, getD_eq_get v j hj]
    exact List.pairwise_iff_get.mp hs ⟨i, hi⟩ ⟨j, hj⟩ hlt

/-- The ceiling of a non-integer rational is its floor plus one. -/
theorem ceil_eq_floor_add_one_of_ne (x : ℚ) (hne : ¬ x = (⌊x⌋ : ℚ)) :
    (⌈x⌉ : ℤ) = ⌊x⌋ + 1 := by
  have h1 := Int.ceil_le_floor_add_one x
  have h2 : (⌊x⌋ : ℤ) < ⌈x⌉ := by
    by_contra hc
    push_neg at hc
    have h3 := Int.floor_le_ceil x
    have h4 : (⌈x⌉ : ℤ) = ⌊x⌋ := le_antisymm hc h3
    have h5 := Int.le_ceil x
    have h6 := Int.floor_le x
    apply hne
    have h7 : ((⌈x⌉ : ℤ) : ℚ) = ((⌊x⌋ : ℤ) : ℚ) := by exact_mod_cast h4
    exact le_antisymm (h5.trans_eq h7) h6
  omega

/-- The interpolation kernel of `calculatePercentile` at a raw index. -/
def interpAt (v : List ℚ) (x : ℚ) : ℚ :=
  v.getD (⌊x⌋).toNat 0 * (1 - (x - ⌊x⌋)) + v.getD (⌈x⌉).toNat 0 * (x - ⌊x⌋)

theorem calculatePercentile_eq_interpAt (v : List ℚ) (p : ℚ) (h2 : 2 ≤ v.length) :
    calculatePercentile v p = interpAt v ((p / 100) * ((v.length : ℚ) - 1)) := by
  have h0 : ¬ v.length = 0 := by omega
  have h1 : ¬ v.length = 1 := by omega
  simp only [calculatePercentile, if_neg h0, if_neg h1, interpAt]

/-- On an in-range index over a sorted sample, the interpolated value sits
between the two order statistics it mixes. -/
theorem interpAt_bounds (v : List ℚ) (hs : List.Pairwise (· ≤ ·) v) (hlen : 2 ≤ v.length)
    (x : ℚ) (hx0 : 0 ≤ x) (hxn : x ≤ (v.length : ℚ) - 1) :
    v.getD (⌊x⌋).toNat 0 ≤ interpAt v x ∧ interpAt v x ≤ v.getD (⌈x⌉).toNat 0 := by
  have hcl_le : (⌈x⌉ : ℤ) ≤ (v.length : ℤ) - 1 := by
    apply Int.ceil_le.mpr
    push_cast
    linarith
  have hclNat : (⌈x⌉).toNat < v.length := by omega
  have hflNat_le : (⌊x⌋).toNat ≤ (⌈x⌉).toNat := by
    have := Int.floor_le_ceil x
    omega
  have hab : v.getD (⌊x⌋).toNat 0 ≤ v.getD (⌈x⌉).toNat 0 :=
    sorted_getD_mono v hs _ _ hflNat_le hclNat
  have hw0 : 0 ≤ x - ⌊x⌋ := by have := Int.floor_le x; linarith
  have hw1 : x - ⌊x⌋ < 1 := by have := Int.lt_floor_add_one x; linarith
  unfold interpAt
  constructor
  · nlinarith [hab, hw0]
  · nlinarith [hab, hw0, hw1]

/-- The interpolation kernel is monotone in the index over a sorted
sample. -/
theorem interpAt_mono (v : List ℚ) (hs : List.Pairwise (· ≤ ·) v) (hlen : 2 ≤ v.length)
    (x y : ℚ) (hx0 : 0 ≤ x) (hxy : x ≤ y) (hyn : y ≤ (v.length : ℚ) - 1) :
    interpAt v x ≤ interpAt v y := by
  have hy0 : 0 ≤ y := le_trans hx0 hxy
  have hxn : x ≤ (v.length : ℚ) - 1 := le_trans hxy hyn
  have hbx := interpAt_bounds v hs hlen x hx0 hxn
  have hby := interpAt_bounds v hs hlen y hy0 hyn
  have hfle : (⌊x⌋ : ℤ) ≤ ⌊y⌋ := Int.floor_le_floor hxy
  have hcly_le : (⌈y⌉ : ℤ) ≤ (v.length : ℤ) - 1 := by
    apply Int.ceil_le.mpr
    push_cast
    linarith
  rcases eq_or_lt_of_le hfle with heq | hlt
  · by_cases hwx : x - ⌊x⌋ = 0
    · have hxv : interpAt v x = v.getD (⌊x⌋).toNat 0 := by
        unfold interpAt
        rw [hwx]
        ring
      rw [hxv, heq]
      exact hby.1
    · have hwx0 : 0 < x - ⌊x⌋ :=
        lt_of_le_of_ne (by have := Int.floor_le x; linarith) (Ne.symm hwx)
      have hxnotint : ¬ x = (⌊x⌋ : ℚ) := by intro h; exact hwx (sub_eq_zero.mpr h)
      have hclx : (⌈x⌉ : ℤ) = ⌊x⌋ + 1 := ceil_eq_floor_add_one_of_ne x hxnotint
      have hwy0 : 0 < y - ⌊y⌋ := by
        rw [← heq]
        linarith
      have hynotint : ¬ y = (⌊y⌋ : ℚ) := by intro h; rw [h] at hwy0; simp at hwy0
      have hcly : (⌈y⌉ : ℤ) = ⌊y⌋ + 1 := ceil_eq_floor_add_one_of_ne y hynotint
      have hb_lt : (⌊x⌋ + 1).toNat < v.length := by
        rw [← hclx]
        rw [heq] at hclx
        omega
      have hab : v.getD (⌊x⌋).toNat 0 ≤ v.getD (⌊x⌋ + 1).toNat 0 :=
        sorted_getD_mono v hs _ _ (by omega) hb_lt
      unfold interpAt
      rw [hclx, hcly, ← heq]
      nlinarith [hab, hxy]
  · have hmid : v.getD (⌈x⌉).toNat 0 ≤ v.getD (⌊y⌋).toNat 0 := by
      apply sorted_getD_mono v hs
      · have := Int.ceil_le_floor_add_one x
        omega
      · have h1 : (⌊y⌋ : ℚ) ≤ y := Int.floor_le y
        have h2 : (⌊y⌋ : ℤ) ≤ (v.length : ℤ) - 1 := by
          have h3 : (⌊y⌋ : ℚ) ≤ (v.length : ℚ) - 1 := le_trans h1 hyn
          exact_mod_cast h3
        omega
    exact le_trans hbx.2 (le_trans hmid hby.1)

/-- `calculatePercentile` is monotone in the percentile over a sorted
sample kept inside `[0, 100]`. -/
theorem calculatePercentile_mono (v : List ℚ) (hs : List.Pairwise (· ≤ ·) v)
    (p q : ℚ) (hp0 : 0 ≤ p) (hpq : p ≤ q) (hq : q ≤ 100) :
    calculatePercentile v p ≤ calculatePercentile v q := by
  by_cases h0 : v.length = 0
  · simp [calculatePercentile, h0]
  by_cases h1 : v.length = 1
  · simp [calculatePercentile, h0, h1]
  have h2 : 2 ≤ v.length := by omega
  have hlenq : (2:ℚ) ≤ (v.length : ℚ) := by exact_mod_cast h2
  have hlen0 : (0:ℚ) ≤ (v.length : ℚ) - 1 := by linarith
  rw [calculatePercentile_eq_interpAt v p h2, calculatePercentile_eq_interpAt v q h2]
  apply interpAt_mono v hs h2
  · exact mul_nonneg (div_nonneg hp0 (by norm_num)) hlen0
  · exact mul_le_mul_of_nonneg_right (by linarith) hlen0
  · calc q / 100 * ((v.length : ℚ) - 1) ≤ 1 * ((v.length : ℚ) - 1) :=
        mul_le_mul_of_nonneg_right (by linarith) hlen0
    _ = (v.length : ℚ) - 1 := one_mul _

/-- C6: for every status, window, and list of percentiles requested in
increasing order inside `[0, 100]`, the threshold sequence stored by the
SLE assembler (ceiling of each interpolated percentile over the
ascending-sorted non-empty windowed sample) is monotonically
non-decreasing. -/
theorem calculateSLEsForStatuses_monotone_thresholds
    (m : List (Str × List TransitionRecord)) (w : Window) (ps : List ℚ)
    (sid : Str) (sles : List Int)
    (hps : List.Pairwise (· ≤ ·) ps) (hrange : ∀ p ∈ ps, 0 ≤ p ∧ p ≤ 100)
    (hmem : (sid, sles) ∈ calculateSLEsForStatuses m w ps) :
    List.Pairwise (· ≤ ·) sles := by
  unfold calculateSLEsForStatuses at hmem
  obtain ⟨a, ha, hfa⟩ := List.mem_filterMap.mp hmem
  by_cases hemp : filterTransitionsByWindow a.2 w = []
  · simp [hemp] at hfa
  · simp only [if_neg hemp] at hfa
    injection hfa with hfa'
    injection hfa' with hsid hsles
    rw [← hsles]
    rw [List.pairwise_map]
    apply List.Pairwise.imp_of_mem ?_ hps
    intro p q hp hq hpq
    apply Int.ceil_le_ceil
    exact calculatePercentile_mono _
      (List.sorted_insertionSort _ _)
      p q (hrange p hp).1 hpq (hrange q hq).2

def trC6 : TransitionRecord :=
  { issueKey := ("K-1").data, exitDate := ("2024-05-05").data, overallAge := 4 }

def mC6 : List (Str × List TransitionRecord) := [(("7").data, [trC6])]

def psC6 : List ℚ := [50, 100]

/-- Witness for C6: one status with one windowed record and percentiles
[50, 100] yields the non-decreasing threshold list [4, 4]. -/
theorem calculateSLEsForStatuses_monotone_thresholds_witness :
    List.Pairwise (fun a b : Int => a ≤ b) [(4 : Int), 4] :=
  calculateSLEsForStatuses_monotone_thresholds mC6 (Window.count 5) psC6 (("7").data) [4, 4]
    (by norm_num [psC6, List.pairwise_cons])
    (by
      intro p hp
      simp only [psC6, List.mem_cons, List.mem_singleton, List.not_mem_nil, or_false] at hp
      rcases hp with rfl | rfl <;> norm_num)
    (by
      simp [calculateSLEsForStatuses, mC6, psC6, trC6, filterTransitionsByWindow,
        List.insertionSort, List.orderedInsert, calculatePercentile, Int.ceil_intCast])

-- ============================================================================
-- ColumnOrderReconciler: data model
-- ============================================================================

/-- The aging-relevant payload of one transformed issue (`transformIssue`,
part_002 lines 1500-1533; the presentation fields are outside the engine). -/
structure BoardItem where
  key : Str
  age : Int
  age_in_current_state : Int
  start_date : Str
  current_state_start_date : Str
deriving DecidableEq

/-- A transformed issue carrying the temporary `status` / `statusId`
grouping fields that `buildOutput` attaches (part_002 lines 1762-1767) and
`createColumns` strips again by destructuring. -/
structure GroupedIssue where
  status : Str
  statusId : Str
  item : BoardItem
deriving DecidableEq

/-- One output board column. -/
structure Column where
  name : Str
  top_text : Str
  order : Int
  sle : Option (List Int)
  items : List BoardItem
deriving DecidableEq

/-- Source `transformIssue` restricted to the engine fields: the aging
metrics plus the issue key. -/
def transformIssue (issue : Issue) (referenceDate : Timestamp) (m : StatusCategoryMap) :
    BoardItem :=
  let ageMetrics := calculateAgeMetrics issue referenceDate m
  { key := issue.key
    age := ageMetrics.age
    age_in_current_state := ageMetrics.age_in_current_state
    start_date := ageMetrics.start_date
    current_state_start_date := ageMetrics.current_state_start_date }

/-- Append `v` to the group of key `k`, creating the group at the end on
first sight — the JS `Map` accumulation pattern of `groupByStatus`. -/
def upsertAppend (k : Str) (v : GroupedIssue) :
    List (Str × List GroupedIssue) → List (Str × List GroupedIssue)
  | [] => [(k, [v])]
  | (k', vs) :: rest =>
    if k' = k then (k', vs ++ [v]) :: rest else (k', vs) :: upsertAppend k v rest

/-- Source `groupByStatus(issues)` (part_002 lines 1535-1547): group by the
`status` field, preserving first-seen key order and in-group order. -/
def groupByStatus (issues : List GroupedIssue) : List (Str × List GroupedIssue) :=
  issues.foldl (fun acc issue => upsertAppend issue.status issue acc) []

/-- The `sle` lookup of `createColumns`: resolve the status name to an id
through `statusIdMap` (if provided), then, if the id is truthy and an SLE
map is provided, look the id up there; `sles || null` turns a missing entry
into `null`. -/
def sleFor (slesByStatusId : Option (List (Str × List Int)))
    (statusIdMap : Option (List (Str × Str))) (statusName : Str) : Option (List Int) :=
  match statusIdMap.bind (fun mp => mp.lookup statusName) with
  | some sid => if sid ≠ [] then slesByStatusId.bind (fun sl => sl.lookup sid) else none
  | none => none

def strWIP : Str := ("WIP: ").data

/-- The per-group column builder of `createColumns`, threading the running
1-based `order`. -/
def createColumnsGo (slesByStatusId : Option (List (Str × List Int)))
    (statusIdMap : Option (List (Str × Str))) (order : Int) :
    List (Str × List GroupedIssue) → List Column
  | [] => []
  | (statusName, issues) :: rest =>
    { name := statusName
      top_text := strWIP ++ intToStr issues.length
      order := order
      sle := sleFor slesByStatusId statusIdMap statusName
      items := issues.map GroupedIssue.item } ::
    createColumnsGo slesByStatusId statusIdMap (order + 1) rest

/-- Source `createColumns(issuesByStatus, slesByStatusId, statusIdMap)`
(part_002 lines 1693-1716). -/
def createColumns (issuesByStatus : List (Str × List GroupedIssue))
    (slesByStatusId : Option (List (Str × List Int)))
    (statusIdMap : Option (List (Str × Str))) : List Column :=
  createColumnsGo slesByStatusId statusIdMap 1 issuesByStatus

-- ============================================================================
-- C7: empty windowed samples are omitted and surface as null
-- ============================================================================

/-- Columns produced by `createColumnsGo` are exactly the groups, with the
`sle` field computed by `sleFor` on the group's name. -/
theorem mem_createColumnsGo (sles : Option (List (Str × List Int)))
    (idMap : Option (List (Str × Str))) (c : Column) :
    ∀ (l : List (Str × List GroupedIssue)) (o : Int),
      c ∈ createColumnsGo sles idMap o l →
      ∃ p ∈ l, c.name = p.1 ∧ c.sle = sleFor sles idMap p.1 := by
  intro l
  induction l with
  | nil => intro o h; cases h
  | cons hd tl ih =>
    intro o h
    obtain ⟨nm, iss⟩ := hd
    rcases List.mem_cons.mp h with hc | hc
    · exact ⟨(nm, iss), List.mem_cons_self _ _, by rw [hc], by rw [hc]⟩
    · obtain ⟨p, hp, hn, hs⟩ := ih (o + 1) hc
      exact ⟨p, List.mem_cons_of_mem _ hp, hn, hs⟩

/-- `lookup` misses every key whose entries were all dropped by a
`filterMap` producer. -/
theorem lookup_filterMap_none (sid : Str) (m : List (Str × List TransitionRecord))
    (f : Str × List TransitionRecord → Option (Str × List Int))
    (hkey : ∀ p b, f p = some b → b.1 = p.1)
    (hdrop : ∀ ts, (sid, ts) ∈ m → f (sid, ts) = none) :
    (m.filterMap f).lookup sid = none := by
  induction m with
  | nil => rfl
  | cons hd tl ih =>
    obtain ⟨k, ts⟩ := hd
    by_cases hk : k = sid
    · subst hk
      rw [List.filterMap_cons, hdrop ts (List.mem_cons_self _ _)]
      exact ih (fun ts' h => hdrop ts' (List.mem_cons_of_mem _ h))
    · rw [List.filterMap_cons]
      cases hf : f (k, ts) with
      | none => exact ih (fun ts' h => hdrop ts' (List.mem_cons_of_mem _ h))
      | some b =>
        have hb := hkey _ _ hf
        have hbe : (sid == b.1) = false := by
          rw [hb]
          exact beq_eq_false_iff_ne.mpr (fun h => hk h.symm)
        rw [List.lookup_cons, hbe]
        exact ih (fun ts' h => hdrop ts' (List.mem_cons_of_mem _ h))

/-- C7: a status whose historical sample is empty after windowing gets no
entry in the SLE map at all, and every column whose status name resolves to
that status id carries `sle = null` — never an array of zeros. -/
theorem sle_empty_sample_null
    (m : List (Str × List TransitionRecord)) (w : Window) (ps : List ℚ) (sid : Str)
    (hempty : ∀ ts, (sid, ts) ∈ m → filterTransitionsByWindow ts w = []) :
    (calculateSLEsForStatuses m w ps).lookup sid = none ∧
    (∀ (ibs : List (Str × List GroupedIssue)) (idMap : List (Str × Str)) (c : Column),
      c ∈ createColumns ibs (some (calculateSLEsForStatuses m w ps)) (some idMap) →
      idMap.lookup c.name = some sid →
      c.sle = none) := by
  have hlookup : (calculateSLEsForStatuses m w ps).lookup sid = none := by
    unfold calculateSLEsForStatuses
    apply lookup_filterMap_none
    · intro p b hf
      by_cases hc : filterTransitionsByWindow p.2 w = []
      · simp [hc] at hf
      · simp only [if_neg hc] at hf
        injection hf with hf'
        rw [← hf']
    · intro ts hts
      simp [hempty ts hts]
  refine ⟨hlookup, ?_⟩
  intro ibs idMap c hc hcname
  obtain ⟨p, hp, hname, hsle⟩ := mem_createColumnsGo _ _ c ibs 1 hc
  rw [hsle]
  unfold sleFor
  rw [← hname]
  simp only [Option.some_bind, hcname]
  by_cases hsid : sid = []
  · simp [hsid]
  · simp [hsid, hlookup]

def trC7 : TransitionRecord :=
  { issueKey := ("K-2").data, exitDate := ("2020-05-05").data, overallAge := 9 }

def mC7 : List (Str × List TransitionRecord) := [(("9").data, [trC7])]

def wC7 : Window := Window.date (("2025-01-01").data)

/-- Witness for C7: a status whose only record exited in 2020 against a
2025 date window has no SLE entry and its column carries null. -/
theorem sle_empty_sample_null_witness :
    (calculateSLEsForStatuses mC7 wC7 []).lookup (("9").data) = none ∧
    ∀ c ∈ createColumns [((("Review").data), [])]
        (some (calculateSLEsForStatuses mC7 wC7 []))
        (some [((("Review").data), (("9").data))]), c.sle = none := by
  have hemp : ∀ ts, ((("9").data), ts) ∈ mC7 → filterTransitionsByWindow ts wC7 = [] := by
    intro ts hts
    simp only [mC7, List.mem_singleton, Prod.mk.injEq, true_and] at hts
    subst hts
    decide
  have h := sle_empty_sample_null mC7 wC7 [] (("9").data) hemp
  refine ⟨h.1, ?_⟩
  intro c hc
  have hcname : List.lookup c.name [((("Review").data), (("9").data))] = some (("9").data) := by
    simp only [createColumns, createColumnsGo, List.mem_singleton] at hc
    rw [hc]
    decide
  exact h.2 [((("Review").data), [])] [((("Review").data), (("9").data))] c hc hcname

-- ============================================================================
-- C9: category-map omission rules
-- ============================================================================

def stC9 : StatusDef :=
  { id := ("1").data, name := ("X").data
    statusCategory := some (CategoryValue.str (("WEIRD").data)) }

def stMissingC9 : StatusDef :=
  { id := ("5").data, name := ("Y").data, statusCategory := none }

/-- Counterexample to C9 as stated.  A status whose category is the unknown
bare string `WEIRD` is not omitted from the map: the resolver lowercases the
unknown token and stores it under both the status id and the status name,
so downstream lookups of that status succeed with the non-standard key
`weird`. -/
theorem buildStatusCategoryMap_unknown_kept_counterexample :
    buildStatusCategoryMap [stC9] (("1").data) = some (("weird").data) ∧
    buildStatusCategoryMap [stC9] (("X").data) = some (("weird").data) := by
  constructor <;> decide

/-- C9 (amended): a status whose category value is missing — or an
object-shaped category without a truthy key — contributes no map entries at
all (no entry under its id or its name); a bare-string category that is not
one of the known tokens is instead kept, lowercased, rather than omitted or
defaulted; and every entry of the built map traces back to some status's
own computed category key, so no status is ever silently assigned a default
category. -/
theorem buildStatusCategoryMap_omission_rules :
    (∀ st : StatusDef, st.statusCategory = none → statusCategoryKeyOf st = none) ∧
    (∀ st : StatusDef, st.statusCategory = some (CategoryValue.obj none) →
      statusCategoryKeyOf st = none) ∧
    (∀ (m : StatusCategoryMap) (st : StatusDef), statusCategoryKeyOf st = none →
      buildStatusCategoryStep m st = m) ∧
    (∀ (sts : List StatusDef) (x v : Str),
      buildStatusCategoryMap sts x = some v →
      ∃ st ∈ sts, (x = st.id ∨ x = st.name) ∧ statusCategoryKeyOf st = some v) ∧
    (∀ (st : StatusDef) (s : Str), st.statusCategory = some (CategoryValue.str s) →
      s ≠ [] → categoryStringToKey s = none →
      statusCategoryKeyOf st = some (asciiLower s)) := by
  have hstep : ∀ (acc : StatusCategoryMap) (st : StatusDef) (x v : Str),
      buildStatusCategoryStep acc st x = some v →
      ((x = st.id ∨ x = st.name) ∧ statusCategoryKeyOf st = some v) ∨ acc x = some v := by
    intro acc st x v h
    unfold buildStatusCategoryStep at h
    cases hkey : statusCategoryKeyOf st with
    | none => rw [hkey] at h; exact Or.inr h
    | some key =>
      rw [hkey] at h
      have h2 : (if x = st.name then some key else if x = st.id then some key
          else acc x) = some v := h
      by_cases hxn : x = st.name
      · rw [if_pos hxn] at h2
        injection h2 with h'
        exact Or.inl ⟨Or.inr hxn, by rw [h']⟩
      · rw [if_neg hxn] at h2
        by_cases hxi : x = st.id
        · rw [if_pos hxi] at h2
          injection h2 with h'
          exact Or.inl ⟨Or.inl hxi, by rw [h']⟩
        · rw [if_neg hxi] at h2
          exact Or.inr h2
  have htrace : ∀ (sts : List StatusDef) (acc : StatusCategoryMap) (x v : Str),
      sts.foldl buildStatusCategoryStep acc x = some v →
      (∃ st ∈ sts, (x = st.id ∨ x = st.name) ∧ statusCategoryKeyOf st = some v) ∨
        acc x = some v := by
    intro sts
    induction sts with
    | nil => intro acc x v h; exact Or.inr h
    | cons hd tl ih =>
      intro acc x v h
      rcases ih (buildStatusCategoryStep acc hd) x v h with hin | hacc
      · obtain ⟨st, hst, hx, hk⟩ := hin
        exact Or.inl ⟨st, List.mem_cons_of_mem _ hst, hx, hk⟩
      · rcases hstep acc hd x v hacc with hself | hold
        · exact Or.inl ⟨hd, List.mem_cons_self _ _, hself⟩
        · exact Or.inr hold
  refine ⟨?_, ?_, ?_, ?_, ?_⟩
  · intro st h
    simp [statusCategoryKeyOf, truthyCategory, h]
  · intro st h
    simp [statusCategoryKeyOf, truthyCategory, truthyStr, h]
  · intro m st h
    unfold buildStatusCategoryStep
    rw [h]
  · intro sts x v h
    rcases htrace sts (fun _ => none) x v h with hin | hacc
    · exact hin
    · cases hacc
  · intro st s hcat hne hunk
    have hlow : asciiLower s ≠ [] := by
      intro hl
      apply hne
      have := congrArg List.length hl
      simp [asciiLower] at this
      simpa using this
    simp [statusCategoryKeyOf, truthyCategory, truthyStr, hcat, hne, hunk, hlow]

/-- Witness for C9: a missing-category status contributes nothing; the
`WEIRD` status's map entry traces to its own lowercased key. -/
theorem buildStatusCategoryMap_omission_rules_witness :
    statusCategoryKeyOf stMissingC9 = none ∧
    buildStatusCategoryStep (fun _ => none) stMissingC9 = (fun _ => none) ∧
    (∃ st ∈ [stC9], ((("1").data) = st.id ∨ (("1").data) = st.name) ∧
      statusCategoryKeyOf st = some (("weird").data)) ∧
    statusCategoryKeyOf stC9 = some (asciiLower (("WEIRD").data)) :=
  ⟨buildStatusCategoryMap_omission_rules.1 stMissingC9 rfl,
   buildStatusCategoryMap_omission_rules.2.2.1 (fun _ => none) stMissingC9
     (buildStatusCategoryMap_omission_rules.1 stMissingC9 rfl),
   buildStatusCategoryMap_omission_rules.2.2.2.1 [stC9] (("1").data) (("weird").data)
     (by decide),
   buildStatusCategoryMap_omission_rules.2.2.2.2 stC9 (("WEIRD").data) rfl
     (by decide) (by decide)⟩

-- ============================================================================
-- ColumnOrderReconciler: buildOutput
-- ============================================================================

/-- JS whitespace test for `String.prototype.trim` (ASCII fragment). -/
def isWSCh (c : Char) : Bool := decide (c.toNat = 32 ∨ (9 ≤ c.toNat ∧ c.toNat ≤ 13))

/-- JS `trim()`. -/
def trimStr (s : Str) : Str := ((s.dropWhile isWSCh).reverse.dropWhile isWSCh).reverse

/-- JS `split(',')`. -/
def splitComma : Str → List Str
  | [] => [[]]
  | c :: rest =>
    if c = ',' then [] :: splitComma rest
    else
      match splitComma rest with
      | [] => [[c]]
      | hd :: tl => (c :: hd) :: tl

/-- `if (!map.has(k)) map.set(k, v)` over an insertion-ordered
association list. -/
def setIfAbsent (mp : List (Str × Str)) (k v : Str) : List (Str × Str) :=
  if (mp.lookup k).isSome then mp else mp ++ [(k, v)]

/-- The index the `orderMap` of `buildOutput` assigns to a name: JS
`new Map(orderArray.map((name, index) => [name, index]))` lets a later
duplicate overwrite an earlier one, so this is the last matching index
(scanning with a running offset). -/
def lastIndexFrom (name : Str) : Nat → List Str → Option Nat
  | _, [] => none
  | i, s :: rest =>
    match lastIndexFrom name (i + 1) rest with
    | some j => some j
    | none => if s = name then some i else none

def orderMapGet (arr : List Str) (name : Str) : Option Nat := lastIndexFrom name 0 arr

/-- The numeric sort key of the column reorder: the orderMap index when the
name is listed, else the 9999 sentinel. -/
def orderKeyOf (arr : List Str) (c : Column) : Nat :=
  match orderMapGet arr c.name with
  | some i => i
  | none => 9999

def colKeyLe (arr : List Str) (a b : Column) : Prop := orderKeyOf arr a ≤ orderKeyOf arr b

instance (arr : List Str) : DecidableRel (colKeyLe arr) := fun a b => by
  unfold colKeyLe
  infer_instance

instance (arr : List Str) : IsTotal Column (colKeyLe arr) :=
  ⟨fun a b => Nat.le_total (orderKeyOf arr a) (orderKeyOf arr b)⟩

instance (arr : List Str) : IsTrans Column (colKeyLe arr) :=
  ⟨fun _ _ _ hab hbc => Nat.le_trans hab hbc⟩

/-- The synthesized placeholder column `buildOutput` pushes for a listed
status with no live column (part_002 lines 1801-1814). -/
def emptyColumnFor (statusIdMap : List (Str × Str))
    (slesByStatusId : Option (List (Str × List Int))) (statusName : Str) : Column :=
  { name := statusName
    top_text := strWIP ++ intToStr 0
    order := 9999
    sle := sleFor slesByStatusId (some statusIdMap) statusName
    items := [] }

/-- The synthesizing pass over `orderArray`: push a placeholder for every
listed name with no existing column. -/
def addMissingColumns (arr : List Str) (statusIdMap : List (Str × Str))
    (slesByStatusId : Option (List (Str × List Int))) (cols : List Column) : List Column :=
  arr.foldl (fun acc statusName =>
    if acc.any (fun col => decide (col.name = statusName)) then acc
    else acc ++ [emptyColumnFor statusIdMap slesByStatusId statusName]) cols

/-- The final `columns.forEach((col, index) => col.order = index + 1)`. -/
def assignOrders (k : Int) : List Column → List Column
  | [] => []
  | c :: rest => { c with order := k } :: assignOrders (k + 1) rest

/-- The whole custom-column-order block of `buildOutput` (part_002 lines
1793-1827): synthesize missing listed columns, stable-sort by orderMap index
with the 9999 sentinel for unlisted names, and re-assign 1-based orders. -/
def applyColumnsOrder (arr : List Str) (statusIdMap : List (Str × Str))
    (slesByStatusId : Option (List (Str × List Int))) (cols : List Column) : List Column :=
  assignOrders 1
    (List.insertionSort (colKeyLe arr) (addMissingColumns arr statusIdMap slesByStatusId cols))

/-- Source `buildOutput` (part_002 lines 1760-1840) restricted to its
column product: transform and group the live issues, build the
name-to-id map (live issues first, then the optional full status map),
create the columns, and apply the custom order when given. -/
def buildOutput (issues : List Issue) (referenceDate : Timestamp) (m : StatusCategoryMap)
    (slesByStatusId : Option (List (Str × List Int))) (columnsOrder : Option Str)
    (allStatusNameToIdMap : Option (List (Str × Str))) : List Column :=
  let transformed := issues.map (fun i =>
    { status := i.statusName, statusId := i.statusId
      item := transformIssue i referenceDate m : GroupedIssue })
  let issuesByStatus := groupByStatus transformed
  let statusIdMap0 := transformed.foldl (fun mp ti => setIfAbsent mp ti.status ti.statusId) []
  let statusIdMap := match allStatusNameToIdMap with
    | none => statusIdMap0
    | some l => l.foldl (fun mp p => setIfAbsent mp p.1 p.2) statusIdMap0
  let columns := createColumns issuesByStatus slesByStatusId (some statusIdMap)
  match columnsOrder with
  | none => columns
  | some orderStr =>
    let orderArray := (splitComma orderStr).map trimStr
    applyColumnsOrder orderArray statusIdMap slesByStatusId columns

-- ============================================================================
-- C8: orderMap lemmas
-- ============================================================================

theorem lastIndexFrom_none (name : Str) (l : List Str) (hnm : name ∉ l) :
    ∀ k, lastIndexFrom name k l = none := by
  induction l with
  | nil => intro k; rfl
  | cons s rest ih =>
    intro k
    have h1 : s ≠ name := fun h => hnm (h ▸ List.mem_cons_self s rest)
    have h2 : name ∉ rest := fun h => hnm (List.mem_cons_of_mem s h)
    unfold lastIndexFrom
    rw [ih h2 (k + 1)]
    simp [h1]

theorem lastIndexFrom_mem (name : Str) (l : List Str) (h : name ∈ l) :
    ∀ k, (lastIndexFrom name k l).isSome = true := by
  induction l with
  | nil => cases h
  | cons s rest ih =>
    intro k
    unfold lastIndexFrom
    cases hrec : lastIndexFrom name (k + 1) rest with
    | some j => simp
    | none =>
      rcases List.mem_cons.mp h with rfl | hmem
      · simp
      · have hsome := ih hmem (k + 1)
        rw [hrec] at hsome
        cases hsome

theorem lastIndexFrom_get (name : Str) (l : List Str) (hl : l.Nodup) :
    ∀ (i : Nat), l.get? i = some name → ∀ k, lastIndexFrom name k l = some (k + i) := by
  induction l with
  | nil => intro i hget; cases hget
  | cons s rest ih =>
    intro i hget k
    have hnd := List.nodup_cons.mp hl
    cases i with
    | zero =>
      have hs : s = name := by simpa using hget
      have hrest : name ∉ rest := hs ▸ hnd.1
      subst hs
      unfold lastIndexFrom
      rw [lastIndexFrom_none s rest hrest (k + 1)]
      show (if s = s then some k else none) = some (k + 0)
      simp
    | succ i' =>
      have hget' : rest.get? i' = some name := by simpa using hget
      unfold lastIndexFrom
      rw [ih hnd.2 i' hget' (k + 1)]
      show some (k + 1 + i') = some (k + (i' + 1))
      congr 1
      omega

theorem lastIndexFrom_sound (name : Str) (l : List Str) :
    ∀ k j, lastIndexFrom name k l = some j → ∃ i, j = k + i ∧ l.get? i = some name := by
  induction l with
  | nil => intro k j h; cases h
  | cons s rest ih =>
    intro k j h
    unfold lastIndexFrom at h
    cases hrec : lastIndexFrom name (k + 1) rest with
    | some j' =>
      rw [hrec] at h
      injection h with h'
      subst h'
      obtain ⟨i, hi, hg⟩ := ih (k + 1) j' hrec
      exact ⟨i + 1, by omega, by simpa using hg⟩
    | none =>
      rw [hrec] at h
      by_cases hs : s = name
      · rw [if_pos hs] at h
        injection h with h'
        exact ⟨0, by omega, by simp [hs]⟩
      · rw [if_neg hs] at h
        cases h

theorem orderMapGet_not_mem (arr : List Str) (nm : Str) (h : nm ∉ arr) :
    orderMapGet arr nm = none :=
  lastIndexFrom_none nm arr h 0

theorem orderMapGet_get (arr : List Str) (nm : Str) (i : Nat) (hnd : arr.Nodup)
    (h : arr.get? i = some nm) : orderMapGet arr nm = some i := by
  have := lastIndexFrom_get nm arr hnd i h 0
  simpa [orderMapGet] using this

theorem orderMapGet_sound (arr : List Str) (nm : Str) (i : Nat)
    (h : orderMapGet arr nm = some i) : arr.get? i = some nm := by
  obtain ⟨i', hi, hg⟩ := lastIndexFrom_sound nm arr 0 i h
  have : i = i' := by omega
  subst this
  exact hg

theorem orderMapGet_isSome (arr : List Str) (nm : Str) (h : nm ∈ arr) :
    (orderMapGet arr nm).isSome = true :=
  lastIndexFrom_mem nm arr h 0

theorem orderKeyOf_unlisted (arr : List Str) (c : Column) (h : c.name ∉ arr) :
    orderKeyOf arr c = 9999 := by
  simp [orderKeyOf, orderMapGet_not_mem arr _ h]

theorem orderKeyOf_lt_of_listed (arr : List Str) (c : Column) (h : c.name ∈ arr) :
    orderKeyOf arr c < arr.length := by
  cases hmg : orderMapGet arr c.name with
  | none =>
    have := orderMapGet_isSome arr c.name h
    rw [hmg] at this
    cases this
  | some i =>
    have hg := orderMapGet_sound arr c.name i hmg
    have hi : i < arr.length := by
      rcases List.get?_eq_some.mp hg with ⟨hlt, _⟩
      exact hlt
    simp [orderKeyOf, hmg, hi]

theorem orderKeyOf_of_get (arr : List Str) (hnd : arr.Nodup) (c : Column) (i : Nat)
    (h : arr.get? i = some c.name) : orderKeyOf arr c = i := by
  simp [orderKeyOf, orderMapGet_get arr c.name i hnd h]

theorem key_eq_imp_name (arr : List Str) (hlen : arr.length < 9999) (c : Column) (j : Nat)
    (hj : j < arr.length) (hkey : orderKeyOf arr c = j) : arr.get? j = some c.name := by
  unfold orderKeyOf at hkey
  cases hmg : orderMapGet arr c.name with
  | none =>
    rw [hmg] at hkey
    simp at hkey
    omega
  | some i =>
    rw [hmg] at hkey
    subst hkey
    exact orderMapGet_sound arr c.name i hmg

theorem key_range (arr : List Str) (c : Column) :
    orderKeyOf arr c < arr.length ∨ orderKeyOf arr c = 9999 := by
  by_cases h : c.name ∈ arr
  · exact Or.inl (orderKeyOf_lt_of_listed arr c h)
  · exact Or.inr (orderKeyOf_unlisted arr c h)

-- ============================================================================
-- C8: addMissingColumns invariants
-- ============================================================================

theorem addMissingColumns_acc_mem (arr : List Str) (idMap : List (Str × Str))
    (sles : Option (List (Str × List Int))) :
    ∀ (acc : List Column) (c : Column), c ∈ acc →
      c ∈ addMissingColumns arr idMap sles acc := by
  induction arr with
  | nil => intro acc c h; exact h
  | cons hd tl ih =>
    intro acc c h
    show c ∈ addMissingColumns tl idMap sles _
    apply ih
    by_cases hany : acc.any (fun col => decide (col.name = hd)) = true
    · simpa [addMissingColumns, hany] using h
    · simp only [addMissingColumns, List.foldl_cons]
      rw [if_neg hany]
      exact List.mem_append_left _ h

theorem addMissingColumns_origin (arr : List Str) (idMap : List (Str × Str))
    (sles : Option (List (Str × List Int))) :
    ∀ (acc : List Column) (c : Column), c ∈ addMissingColumns arr idMap sles acc →
      c ∈ acc ∨ ∃ nm ∈ arr, c = emptyColumnFor idMap sles nm := by
  induction arr with
  | nil => intro acc c h; exact Or.inl h
  | cons hd tl ih =>
    intro acc c h
    have h' : c ∈ addMissingColumns tl idMap sles
        (if acc.any (fun col => decide (col.name = hd)) then acc
         else acc ++ [emptyColumnFor idMap sles hd]) := h
    rcases ih _ c h' with hacc | ⟨nm, hnm, hc⟩
    · by_cases hany : acc.any (fun col => decide (col.name = hd)) = true
      · rw [if_pos hany] at hacc
        exact Or.inl hacc
      · rw [if_neg hany] at hacc
        rcases List.mem_append.mp hacc with h1 | h1
        · exact Or.inl h1
        · exact Or.inr ⟨hd, List.mem_cons_self _ _, List.mem_singleton.mp h1⟩
    · exact Or.inr ⟨nm, List.mem_cons_of_mem _ hnm, hc⟩

theorem addMissingColumns_covers (arr : List Str) (idMap : List (Str × Str))
    (sles : Option (List (Str × List Int))) :
    ∀ (acc : List Column), ∀ nm ∈ arr,
      ∃ c ∈ addMissingColumns arr idMap sles acc, c.name = nm := by
  induction arr with
  | nil => intro acc nm h; cases h
  | cons hd tl ih =>
    intro acc nm hmem
    rcases List.mem_cons.mp hmem with rfl | hmem'
    · have hstep : ∃ c ∈ (if acc.any (fun col => decide (col.name = nm)) then acc
          else acc ++ [emptyColumnFor idMap sles nm]), c.name = nm := by
        by_cases hany : acc.any (fun col => decide (col.name = nm)) = true
        · obtain ⟨col, hcol, hname⟩ := List.any_eq_true.mp hany
          exact ⟨col, by rw [if_pos hany]; exact hcol, by simpa using hname⟩
        · refine ⟨emptyColumnFor idMap sles nm, ?_, rfl⟩
          rw [if_neg hany]
          exact List.mem_append_right _ (List.mem_singleton.mpr rfl)
      obtain ⟨c, hc, hname⟩ := hstep
      exact ⟨c, addMissingColumns_acc_mem tl idMap sles _ c hc, hname⟩
    · exact ih _ nm hmem'

theorem addMissingColumns_names_nodup (arr : List Str) (idMap : List (Str × Str))
    (sles : Option (List (Str × List Int))) :
    ∀ (acc : List Column), (acc.map Column.name).Nodup →
      ((addMissingColumns arr idMap sles acc).map Column.name).Nodup := by
  induction arr with
  | nil => intro acc h; exact h
  | cons hd tl ih =>
    intro acc h
    show ((addMissingColumns tl idMap sles _).map Column.name).Nodup
    apply ih
    by_cases hany : acc.any (fun col => decide (col.name = hd)) = true
    · simp only [if_pos hany]
      exact h
    · simp only [if_neg hany]
      rw [List.map_append]
      simp only [List.map_cons, List.map_nil]
      rw [List.nodup_append]
      refine ⟨h, List.nodup_singleton _, ?_⟩
      intro a ha hb
      have hbn : a = (emptyColumnFor idMap sles hd).name := by simpa using hb
      obtain ⟨col, hcol, hcn⟩ := List.mem_map.mp ha
      apply hany
      apply List.any_eq_true.mpr
      refine ⟨col, hcol, ?_⟩
      simp only [decide_eq_true_eq]
      rw [hcn, hbn]
      rfl

-- ============================================================================
-- C8: sorted key positions
-- ============================================================================

theorem length_le_one_of_nodup_const (l : List Str) (v : Str) (hnd : l.Nodup)
    (hall : ∀ a ∈ l, a = v) : l.length ≤ 1 := by
  match l with
  | [] => simp
  | [a] => simp
  | a :: b :: t =>
    exfalso
    have ha := hall a (List.mem_cons_self _ _)
    have hb := hall b (List.mem_cons_of_mem _ (List.mem_cons_self _ _))
    have hab : a ≠ b := by
      have hnin := (List.nodup_cons.mp hnd).1
      intro h
      exact hnin (h ▸ List.mem_cons_self b t)
    exact hab (ha.trans hb.symm)

/-- Under distinct column names, exactly one column carries each listed
order-map index. -/
theorem countP_key_eq_one (arr : List Str) (hnd : arr.Nodup) (hlen : arr.length < 9999)
    (P : List Column) (hPnames : (P.map Column.name).Nodup)
    (hall : ∀ nm ∈ arr, ∃ c ∈ P, c.name = nm) (j : Nat) (hj : j < arr.length) :
    P.countP (fun c => orderKeyOf arr c == j) = 1 := by
  obtain ⟨nm, hget⟩ : ∃ nm, arr.get? j = some nm :=
    ⟨arr.get ⟨j, hj⟩, List.get?_eq_get hj⟩
  obtain ⟨c, hcP, hcname⟩ := hall nm (List.get?_mem hget)
  have hckey : orderKeyOf arr c = j :=
    orderKeyOf_of_get arr hnd c j (by rw [hcname]; exact hget)
  rw [List.countP_eq_length_filter]
  have hmemf : c ∈ P.filter (fun c => orderKeyOf arr c == j) :=
    List.mem_filter.mpr ⟨hcP, by simp [hckey]⟩
  have hsub : List.Sublist
      ((P.filter (fun c => orderKeyOf arr c == j)).map Column.name)
      (P.map Column.name) :=
    (List.filter_sublist _).map Column.name
  have hnd2 : ((P.filter (fun c => orderKeyOf arr c == j)).map Column.name).Nodup :=
    hPnames.sublist hsub
  have hconst : ∀ a ∈ (P.filter (fun c => orderKeyOf arr c == j)).map Column.name, a = nm := by
    intro a hamem
    obtain ⟨c', hc', rfl⟩ := List.mem_map.mp hamem
    have hkc' : orderKeyOf arr c' = j := by
      have hf := (List.mem_filter.mp hc').2
      simpa using hf
    have hgname := key_eq_imp_name arr hlen c' j hj hkc'
    rw [hget] at hgname
    injection hgname with h'
    exact h'.symm
  have hle := length_le_one_of_nodup_const _ nm hnd2 hconst
  rw [List.length_map] at hle
  have hge := List.length_pos_of_mem hmemf
  omega

/-- After the stable sort, the key sequence of the columns is exactly
`0, 1, ..., k-1` followed by a block of 9999 sentinels. -/
theorem sorted_keys_eq (arr : List Str) (hnd : arr.Nodup) (hlen : arr.length < 9999)
    (P : List Column) (hPnames : (P.map Column.name).Nodup)
    (hall : ∀ nm ∈ arr, ∃ c ∈ P, c.name = nm) :
    (List.insertionSort (colKeyLe arr) P).map (orderKeyOf arr) =
      List.range arr.length ++
        List.replicate (P.countP (fun c => orderKeyOf arr c == 9999)) 9999 := by
  refine @List.eq_of_perm_of_sorted ℕ (· ≤ ·) _ _ _ ?_ ?_ ?_
  · have h1 : List.Perm ((List.insertionSort (colKeyLe arr) P).map (orderKeyOf arr))
        (P.map (orderKeyOf arr)) :=
      (List.perm_insertionSort (colKeyLe arr) P).map _
    apply h1.trans
    rw [List.perm_iff_count]
    intro a
    have hL : (P.map (orderKeyOf arr)).count a
        = P.countP (fun c => orderKeyOf arr c == a) := by
      rw [List.count, List.countP_map]
      rfl
    rw [List.count_append, hL]
    by_cases ha9 : a = 9999
    · subst ha9
      have hr : (List.range arr.length).count 9999 = 0 :=
        List.count_eq_zero_of_not_mem (by rw [List.mem_range]; omega)
      rw [hr, List.count_replicate, if_pos (by simp)]
      rw [Nat.zero_add]
    · by_cases hak : a < arr.length
      · rw [List.count_eq_one_of_mem (List.nodup_range arr.length) (List.mem_range.mpr hak)]
        rw [List.count_replicate, if_neg (by simp [Ne.symm ha9])]
        rw [countP_key_eq_one arr hnd hlen P hPnames hall a hak]
      · rw [List.count_eq_zero_of_not_mem (fun hmem => hak (List.mem_range.mp hmem)),
            List.count_replicate, if_neg (by simp [Ne.symm ha9]), Nat.add_zero]
        rw [List.countP_eq_zero]
        intro c hc
        rcases key_range arr c with h | h <;>
        · show ¬ (orderKeyOf arr c == a) = true
          simp only [beq_iff_eq]
          omega
  · have hsorted := List.sorted_insertionSort (colKeyLe arr) P
    exact List.pairwise_map.mpr hsorted
  · show List.Pairwise (· ≤ ·) _
    rw [List.pairwise_append]
    refine ⟨List.pairwise_le_range _, List.pairwise_replicate.mpr (Or.inr (le_refl _)), ?_⟩
    intro a ha b hb
    rw [List.mem_range] at ha
    rw [List.eq_of_mem_replicate hb]
    omega

theorem assignOrders_get? (l : List Column) :
    ∀ (k : Int) (i : Nat), (assignOrders k l).get? i =
      (l.get? i).map (fun c => { c with order := k + (i : Int) }) := by
  induction l with
  | nil => intro k i; simp [assignOrders]
  | cons c rest ih =>
    intro k i
    cases i with
    | zero => simp [assignOrders]
    | succ i' =>
      show (assignOrders (k + 1) rest).get? i' = _
      rw [ih (k + 1) i']
      show _ = (rest.get? i').map _
      cases rest.get? i' with
      | none => rfl
      | some c' =>
        show some _ = some _
        congr 2
        push_cast
        ring_nf

/-- The column at position `p` of the key-sorted list carries key `p` when
`p` falls in the listed block, and the 9999 sentinel beyond it. -/
theorem sorted_key_at_position (arr : List Str) (hnd : arr.Nodup) (hlen : arr.length < 9999)
    (P : List Column) (hPnames : (P.map Column.name).Nodup)
    (hall : ∀ nm ∈ arr, ∃ c ∈ P, c.name = nm)
    (p : Nat) (c₀ : Column)
    (hp : (List.insertionSort (colKeyLe arr) P).get? p = some c₀) :
    (p < arr.length ∧ orderKeyOf arr c₀ = p) ∨
    (arr.length ≤ p ∧ orderKeyOf arr c₀ = 9999) := by
  have hkeys := sorted_keys_eq arr hnd hlen P hPnames hall
  have hmap : (List.map (orderKeyOf arr) (List.insertionSort (colKeyLe arr) P)).get? p
      = some (orderKeyOf arr c₀) := by
    rw [List.get?_map, hp]
    rfl
  rw [hkeys] at hmap
  by_cases hpk : p < arr.length
  · left
    refine ⟨hpk, ?_⟩
    rw [List.get?_append (by rw [List.length_range]; exact hpk), List.get?_range hpk] at hmap
    injection hmap with h
    exact h.symm
  · right
    refine ⟨by omega, ?_⟩
    rw [List.get?_append_right (by rw [List.length_range]; omega)] at hmap
    have hm : orderKeyOf arr c₀ ∈ List.replicate
        (P.countP (fun c => orderKeyOf arr c == 9999)) 9999 := List.get?_mem hmap
    exact List.eq_of_mem_replicate hm

def issueC8 (n : Nat) : Issue :=
  { key := ("D-").data ++ intToStr n
    statusId := ("10").data
    statusName := ("Doing").data
    created := { day := daysFromCivil 2024 1 1, ms := 0 }
    changelog := none }

def issuesC8 : List Issue := [issueC8 1, issueC8 2, issueC8 3]

def referenceC8 : Timestamp := { day := daysFromCivil 2024 1 15, ms := 0 }

def orderC8 : Str := ("Backlog,Doing,Done").data

/-- C8: under an explicit column ordering with distinct names (and fewer
than 9999 of them, below the code's sentinel), the reconciler (the custom
column-order block of `buildOutput`) gives the column of the `i`-th listed
name order `i + 1`, synthesizes an empty column (with `sle` populated by
the usual lookup) for every listed name with no live column, and places
every unlisted column after all listed ones; in particular live statuses
Doing×3 with explicit order Backlog,Doing,Done produce exactly the columns
Backlog (0 items, order 1), Doing (3 items, order 2), Done (0 items,
order 3). -/
theorem buildOutput_explicit_order :
    (∀ (arr : List Str) (idMap : List (Str × Str)) (sles : Option (List (Str × List Int)))
        (cols : List Column),
      arr.Nodup → arr.length < 9999 → (cols.map Column.name).Nodup →
      (∀ (i : Nat) (nm : Str), arr.get? i = some nm →
        ∃ c ∈ applyColumnsOrder arr idMap sles cols, c.name = nm ∧ c.order = (i : Int) + 1) ∧
      (∀ nm ∈ arr, (∀ c0 ∈ cols, c0.name ≠ nm) →
        ∃ c ∈ applyColumnsOrder arr idMap sles cols,
          c.name = nm ∧ c.items = [] ∧ c.sle = sleFor sles (some idMap) nm) ∧
      (∀ c c', c ∈ applyColumnsOrder arr idMap sles cols →
        c' ∈ applyColumnsOrder arr idMap sles cols →
        c.name ∈ arr → c'.name ∉ arr → c.order < c'.order)) ∧
    (buildOutput issuesC8 referenceC8 (fun _ => none) none (some orderC8) none).map
        (fun c => (c.name, c.order, c.items.length)) =
      [((("Backlog").data), (1 : Int), 0), ((("Doing").data), 2, 3), ((("Done").data), 3, 0)] := by
  constructor
  · intro arr idMap sles cols hnd hlen hcolsnd
    have hPnames := addMissingColumns_names_nodup arr idMap sles cols hcolsnd
    have hall := addMissingColumns_covers arr idMap sles cols
    have hLP : List.Perm (List.insertionSort (colKeyLe arr) (addMissingColumns arr idMap sles cols))
        (addMissingColumns arr idMap sles cols) :=
      List.perm_insertionSort _ _
    have hkeys := sorted_keys_eq arr hnd hlen _ hPnames hall
    have hlenkeys : (List.insertionSort (colKeyLe arr)
        (addMissingColumns arr idMap sles cols)).length =
        arr.length + (addMissingColumns arr idMap sles cols).countP
          (fun c => orderKeyOf arr c == 9999) := by
      have hc := congrArg List.length hkeys
      simpa using hc
    refine ⟨?_, ?_, ?_⟩
    · intro i nm hget
      have hi : i < arr.length := (List.get?_eq_some.mp hget).1
      have hiL : i < (List.insertionSort (colKeyLe arr)
          (addMissingColumns arr idMap sles cols)).length := by omega
      obtain ⟨c, hcget⟩ : ∃ c, (List.insertionSort (colKeyLe arr)
          (addMissingColumns arr idMap sles cols)).get? i = some c :=
        ⟨_, List.get?_eq_get hiL⟩
      have hkc : orderKeyOf arr c = i := by
        rcases sorted_key_at_position arr hnd hlen _ hPnames hall i c hcget with ⟨-, h⟩ | ⟨h, -⟩
        · exact h
        · omega
      have hname_c : arr.get? i = some c.name := key_eq_imp_name arr hlen c i hi hkc
      have hcname : c.name = nm := by
        rw [hget] at hname_c
        injection hname_c with h
        exact h.symm
      refine ⟨{ c with order := 1 + (i : Int) }, ?_, hcname, ?_⟩
      · apply List.get?_mem
        show (assignOrders 1 _).get? i = _
        rw [assignOrders_get? _ 1 i, hcget]
        rfl
      · show 1 + (i : Int) = (i : Int) + 1
        ring
    · intro nm hnm hnone
      obtain ⟨c, hcP, hcname⟩ := hall nm hnm
      have hc_empty : c = emptyColumnFor idMap sles nm := by
        rcases addMissingColumns_origin arr idMap sles cols c hcP with hcols | ⟨nm', hnm', hceq⟩
        · exact absurd hcname (hnone c hcols)
        · have hnm'eq : nm' = nm := by
            rw [hceq] at hcname
            exact hcname
          rw [hceq, hnm'eq]
      have hcL : c ∈ List.insertionSort (colKeyLe arr)
          (addMissingColumns arr idMap sles cols) := hLP.mem_iff.mpr hcP
      obtain ⟨p, hp⟩ := List.mem_iff_get?.mp hcL
      refine ⟨{ c with order := 1 + (p : Int) }, ?_, hcname, ?_, ?_⟩
      · apply List.get?_mem
        show (assignOrders 1 _).get? p = _
        rw [assignOrders_get? _ 1 p, hp]
        rfl
      · show c.items = []
        rw [hc_empty]
        rfl
      · show c.sle = sleFor sles (some idMap) nm
        rw [hc_empty]
        rfl
    · intro c c' hc hc' hlisted hunlisted
      obtain ⟨p, hpeq⟩ := List.mem_iff_get?.mp hc
      obtain ⟨q, hqeq⟩ := List.mem_iff_get?.mp hc'
      rw [show applyColumnsOrder arr idMap sles cols = assignOrders 1
          (List.insertionSort (colKeyLe arr) (addMissingColumns arr idMap sles cols)) from rfl,
        assignOrders_get? _ 1 p] at hpeq
      rw [show applyColumnsOrder arr idMap sles cols = assignOrders 1
          (List.insertionSort (colKeyLe arr) (addMissingColumns arr idMap sles cols)) from rfl,
        assignOrders_get? _ 1 q] at hqeq
      cases hLp : (List.insertionSort (colKeyLe arr)
          (addMissingColumns arr idMap sles cols)).get? p with
      | none => rw [hLp] at hpeq; cases hpeq
      | some c₀ =>
        cases hLq : (List.insertionSort (colKeyLe arr)
            (addMissingColumns arr idMap sles cols)).get? q with
        | none => rw [hLq] at hqeq; cases hqeq
        | some c₀' =>
          rw [hLp] at hpeq
          rw [hLq] at hqeq
          injection hpeq with hpeq'
          injection hqeq with hqeq'
          have hcname : c.name = c₀.name := by rw [← hpeq']
          have hcorder : c.order = 1 + (p : Int) := by rw [← hpeq']
          have hcname' : c'.name = c₀'.name := by rw [← hqeq']
          have hcorder' : c'.order = 1 + (q : Int) := by rw [← hqeq']
          have hkp : orderKeyOf arr c₀ < arr.length := by
            apply orderKeyOf_lt_of_listed
            rw [← hcname]
            exact hlisted
          have hkq : orderKeyOf arr c₀' = 9999 := by
            apply orderKeyOf_unlisted
            rw [← hcname']
            exact hunlisted
          have hp_lt : p < arr.length := by
            rcases sorted_key_at_position arr hnd hlen _ hPnames hall p c₀ hLp with
              ⟨h1, -⟩ | ⟨-, h2⟩
            · exact h1
            · omega
          have hq_ge : arr.length ≤ q := by
            rcases sorted_key_at_position arr hnd hlen _ hPnames hall q c₀' hLq with
              ⟨-, h2⟩ | ⟨h1, -⟩
            · omega
            · exact h1
          rw [hcorder, hcorder']
          have : p < q := by omega
          omega
  · decide

/-- Witness for C8: a one-name explicit order over no live columns yields
the synthesized column at order 1. -/
theorem buildOutput_explicit_order_witness :
    ∃ c ∈ applyColumnsOrder [(("A").data)] [] none [],
      c.name = (("A").data) ∧ c.order = ((0 : Nat) : Int) + 1 := by
  have h := buildOutput_explicit_order.1 [(("A").data)] [] none []
    (by decide) (by decide) (by decide)
  exact h.1 0 (("A").data) (by decide)
